import Mathlib

/-!
Shallow embedding of `omnizart/music/inference.py` (post-processing /
event-inference pipeline) and verification of its specification claims.

Conventions of the embedding:
* numpy floating arrays are embedded as rational matrices
  (`List (List ℚ)`, time-major) and 3-D tensors (`List (List (List ℚ))`,
  time × pitch × channel);
* Python `int()` truncation is `pyInt`; frame indices that may go negative
  (after the `adjust` shift in `infer_pitch`) are `ℤ`;
* external library functions (scipy `find_peaks`, scipy `CubicSpline`,
  `np.std`) and repository helpers whose code is not in this slice
  (`down_sample`, `roll_down_sample` from `omnizart.music.utils`) are
  parameters of the embedded pipeline; theorems that need facts about them
  assume only their documented contracts;
* a `pretty_midi` score is embedded as a list of tracks, a track as a list
  of note events (optionally paired with its MIDI program number).
-/

set_option maxRecDepth 100000

namespace Omnizart

/-- Python `int()` on a rational: truncation toward zero. -/
def pyInt (q : ℚ) : ℤ := if 0 ≤ q then ⌊q⌋ else -⌊-q⌋

/-- One time-frame of one pitch row of the down-sampled piece:
the four channels `(off, dura, onset, offset)` documented in
`infer_piece`'s docstring. -/
structure Frame4 where
  c0 : ℚ
  c1 : ℚ
  c2 : ℚ
  c3 : ℚ
deriving DecidableEq, Repr, Inhabited

/-- Intermediate note candidate, the dict
`{"start": .., "end": .., "stren": .., "pitch": ..}` built by the
segmenters.  `start`/`stop` are frame indices (`stop` embeds the Python
key `"end"`, a Lean keyword); `start` may be negative after the
`adjust` shift. -/
structure NoteC where
  start : ℤ
  stop : ℤ
  stren : ℚ
  pitch : ℕ
deriving DecidableEq, Repr

instance : Inhabited NoteC := ⟨⟨0, 0, 0, 0⟩⟩

/-- Final `pretty_midi.Note`: velocity, absolute MIDI pitch, and times in
seconds. -/
structure NoteEvent where
  velocity : ℤ
  pitch : ℕ
  start : ℚ
  stop : ℚ
deriving DecidableEq, Repr

instance : Inhabited NoteEvent := ⟨⟨0, 0, 0, 0⟩⟩

/-- A `pretty_midi.Instrument`'s note list. -/
abbrev Track := List NoteEvent

/-- Matrix (2-D numpy array), time-major. -/
abbrev Mat := List (List ℚ)

/-- 3-D tensor (time × pitch × channel numpy array). -/
abbrev Tensor3 := List (List (List ℚ))

/-- Channel-2 (onset) column list of a pitch row: `pitch[:, 2]`. -/
def wOn (row : List Frame4) : List ℚ := row.map (fun f => f.c2)

/-- Channel-1 (duration) column list of a pitch row: `pitch[:, 1]`. -/
def wDura (row : List Frame4) : List ℚ := row.map (fun f => f.c1)

/-- Sum over all four channels of a pitch row: `np.sum(pitch)`. -/
def rowSum (row : List Frame4) : ℚ :=
  (row.map (fun f => f.c0 + f.c1 + f.c2 + f.c3)).sum

/-- Contract of scipy's `find_peaks(w, distance=d, width=5)` used by
`infer_pitch`: returned peak indices are strictly increasing with
consecutive gaps of at least `d`, and lie inside the signal. -/
def PeaksSpec (peaksFn : List ℚ → ℕ → List ℕ) : Prop :=
  ∀ w d, (peaksFn w d).Chain' (fun a b => a + d ≤ b ∧ a < b) ∧
    ∀ p ∈ peaksFn w d, p < w.length

/-! ### `infer_pitch` (lines 13-41), parameterized by the peak list -/

/-- The onset-lag compensation: `adjust = 5 if shortest == 10 else 2`
(line 22). -/
def adjustOf (shortest : ℕ) : ℤ := if shortest = 10 then 5 else 2

/-- Provisional notes (lines 21-25): each peak spans to the next peak,
the last one to the end of the row, all shifted back by `adjust`;
strength is the onset-channel value at the peak. -/
def provisional (w_on : List ℚ) (adjust : ℤ) : List ℕ → List NoteC
  | [] => []
  | [p] => [⟨(p : ℤ) - adjust, (w_on.length : ℤ), w_on.getD p 0, 0⟩]
  | p :: q :: rest =>
      ⟨(p : ℤ) - adjust, (q : ℤ) - adjust, w_on.getD p 0, 0⟩ ::
        provisional w_on adjust (q :: rest)

/-- `np.sum(w_dura[i : i + k])` (line 31): slicing clamps at the end. -/
def windowSum (w : List ℚ) (i k : ℕ) : ℚ := ((w.drop i).take k).sum

/-- First index `i` in `[i₀, i₀ + fuel)` whose forward `k`-window of
`w` sums to zero. -/
def findZeroFrom (w : List ℚ) (k : ℕ) : ℕ → ℕ → Option ℕ
  | _, 0 => none
  | i, fuel + 1 =>
      if windowSum w i k = 0 then some i else findZeroFrom w k (i + 1) fuel

/-- First index `i` in `[p, upper)` with `windowSum w i k = 0`
(the inner loop of lines 30-36 up to its `break`). -/
def findZero (w : List ℚ) (k p upper : ℕ) : Option ℕ :=
  findZeroFrom w k p (upper - p)

/-- Scan upper bound of the offset-refinement loop (line 29):
`int(peaks[idx + 1]) if idx < len(peaks) - 2 else len(w_dura)`. -/
def scanUpper (peaks : List ℕ) (nDura idx : ℕ) : ℕ :=
  if idx < peaks.length - 2 then peaks.getD (idx + 1) 0 else nDura

/-- One iteration of the refinement loop (lines 28-36) at index `idx`,
acting on the state `(notes, del_idx)`. -/
def refineStep (w_dura : List ℚ) (peaks : List ℕ) (shortest oi : ℕ)
    (st : List NoteC × List ℕ) (idx : ℕ) : List NoteC × List ℕ :=
  let p := peaks.getD idx 0
  let upper := scanUpper peaks w_dura.length idx
  match findZero w_dura oi p upper with
  | none => st
  | some i =>
      let nt := st.1.getD idx default
      if (i : ℤ) - nt.start < (shortest : ℤ) then (st.1, st.2 ++ [idx])
      else (st.1.set idx { nt with stop := (i : ℤ) }, st.2)

/-- The full refinement pass (lines 27-36): fold `refineStep` over all
peak indices, starting from the provisional notes and an empty
deletion list. -/
def refineAll (w_dura : List ℚ) (peaks : List ℕ) (shortest oi : ℕ)
    (notes0 : List NoteC) : List NoteC × List ℕ :=
  (List.range peaks.length).foldl (refineStep w_dura peaks shortest oi)
    (notes0, [])

/-- The index-shifted deletion loop (lines 38-39):
`for ii, i in enumerate(del_idx): del notes[i - ii]`. -/
def delLoop : List NoteC → List ℕ → ℕ → List NoteC
  | notes, [], _ => notes
  | notes, i :: rest, ii => delLoop (notes.eraseIdx (i - ii)) rest (ii + 1)

/-- `infer_pitch` (lines 13-41) given the peak list returned by
`find_peaks(w_on, distance=shortest, width=5)`. -/
def infer_pitch_from_peaks (peaks : List ℕ) (w_on w_dura : List ℚ)
    (shortest oi : ℕ) : List NoteC :=
  match peaks with
  | [] => []
  | _ :: _ =>
      let notes0 := provisional w_on (adjustOf shortest) peaks
      let rd := refineAll w_dura peaks shortest oi notes0
      delLoop rd.1 rd.2 0

/-! ### `infer_piece` (lines 44-75) -/

/-- Per-pitch candidate collection (lines 51-62): rows whose total
activation is not positive are skipped, the rest go through
`infer_pitch` and get tagged with their pitch index. -/
def gatherNotes (peaksFn : List ℚ → ℕ → List ℕ) (shortest oi : ℕ) :
    ℕ → List (List Frame4) → List NoteC
  | _, [] => []
  | i, row :: rest =>
      (if rowSum row ≤ 0 then []
       else (infer_pitch_from_peaks (peaksFn (wOn row) shortest)
          (wOn row) (wDura row) shortest oi).map (fun n => { n with pitch := i }))
        ++ gatherNotes peaksFn shortest oi (i + 1) rest

/-- Stable insertion of a note into a start-sorted list (a note goes
after all notes with an equal or smaller start). -/
def insertByStart (n : NoteC) : List NoteC → List NoteC
  | [] => [n]
  | m :: rest =>
      if n.start < m.start then n :: m :: rest else m :: insertByStart n rest

/-- Stable sort by start frame: embeds
`sorted(notes, key=lambda d: d["start"])` (line 65). -/
def sortByStart : List NoteC → List NoteC
  | [] => []
  | n :: rest => insertByStart n (sortByStart rest)

/-- The onset-alignment pass (lines 66-73) with `min_align_diff = 1`:
a note whose start differs from the running last accepted start by
less than one frame is shifted (start and end together) onto that
start; otherwise the running start is updated. -/
def alignLoop (last : ℤ) : List NoteC → List NoteC
  | [] => []
  | n :: rest =>
      let diff := n.start - last
      if diff < 1 then
        { n with start := n.start - diff, stop := n.stop - diff } ::
          alignLoop last rest
      else n :: alignLoop n.start rest

/-- `infer_piece` (lines 44-75) on the pitch-major view of the
down-sampled piece.  `shortest` and `oi` are the already-converted
frame counts `round(shortest_sec / t_unit)` and
`round(offset_sec / t_unit)` of line 59. -/
def infer_piece (peaksFn : List ℚ → ℕ → List ℕ)
    (rows : List (List Frame4)) (shortest oi : ℕ) : List NoteC :=
  alignLoop 0 (sortByStart (gatherNotes peaksFn shortest oi 0 rows))

/-! ### `find_min_max_stren` / `to_midi` (lines 78-139) -/

/-- `find_min_max_stren` (lines 78-88): a scan with sentinel
initializers `MIN = 999`, `MAX = 0` and strict comparisons. -/
def find_min_max_stren (notes : List NoteC) : ℚ × ℚ :=
  notes.foldl
    (fun mm nn =>
      (if nn.stren < mm.1 then nn.stren else mm.1,
       if mm.2 < nn.stren then nn.stren else mm.2))
    (999, 0)

/-- The velocity lambda of line 126:
`int(s_low + (s_up - s_low) * ((stren - l) / (u - l + 0.0001)))`
with `s_low = 60`, `s_up = 127`. -/
def vMap (l u stren : ℚ) : ℤ :=
  pyInt (60 + (127 - 60) * ((stren - l) / (u - l + 1 / 10000)))

/-- One `pretty_midi.Note` of lines 130-137.  `low_b` is
`librosa.note_to_midi("A0") = 21`. -/
def mkEvent (l u t_unit : ℚ) (nn : NoteC) : NoteEvent :=
  ⟨vMap l u nn.stren, nn.pitch + 21, (nn.start : ℚ) * t_unit,
    (nn.stop : ℚ) * t_unit⟩

/-- `to_midi` (lines 116-139): one piano track holding every note,
velocities from the min/max strength scan. -/
def to_midi (notes : List NoteC) (t_unit : ℚ) : List Track :=
  let mm := find_min_max_stren notes
  [notes.map (mkEvent mm.1 mm.2 t_unit)]

/-! ### `find_occur` (lines 91-113) -/

/-- One loop iteration of `find_occur` (lines 104-109) on the state
`(start, last, note)`: a gap larger than one frame closes the current
run (kept only when long enough) and opens a new one at `cidx`; `last`
always advances to `cidx`. -/
def occStep (min_frm : ℚ) (s : ℕ × ℕ × List (ℕ × ℕ)) (cidx : ℕ) :
    ℕ × ℕ × List (ℕ × ℕ) :=
  let rest : ℕ × List (ℕ × ℕ) :=
    if 1 < (cidx : ℤ) - (s.2.1 : ℤ) then
      (cidx,
       if min_frm ≤ (s.2.1 : ℚ) - (s.1 : ℚ) then s.2.2 ++ [(s.1, s.2.1)]
       else s.2.2)
    else (s.1, s.2.2)
  (rest.1, cidx, rest.2)

/-- The trailing-run flush of `find_occur` (lines 111-112). -/
def occFinish (min_frm : ℚ) (st : ℕ × ℕ × List (ℕ × ℕ)) :
    List (ℕ × ℕ) :=
  if min_frm ≤ (st.2.1 : ℚ) - (st.1 : ℚ) then st.2.2 ++ [(st.1, st.2.1)]
  else st.2.2

/-- `find_occur`: maximal runs of frames with activation above 0.5;
a run is kept when it spans at least `min_frm` frames, with
`min_frm = max(t_unit, min_duration) / t_unit` (lines 94-95). -/
def find_occur (pitch : List ℚ) (t_unit min_duration : ℚ) :
    List (ℕ × ℕ) :=
  match (pitch.enum.filter (fun p => (1 : ℚ) / 2 < p.2)).map Prod.fst with
  | [] => []
  | c0 :: cs =>
      occFinish (max t_unit min_duration / t_unit)
        ((c0 :: cs).foldl (occStep (max t_unit min_duration / t_unit))
          (c0, c0, []))

/-! ### Matrix and tensor helpers (numpy operations) -/

/-- Zero-padded 2-D indexing `m[i, j]`. -/
def getM (m : Mat) (i j : ℕ) : ℚ := (m.getD i []).getD j 0

/-- `m.shape[1]` of a time-major matrix. -/
def widthM (m : Mat) : ℕ := (m.headD []).length

/-- Column `m[:, j]`. -/
def colM (m : Mat) (j : ℕ) : List ℚ := m.map (fun row => row.getD j 0)

/-- Channel slice `t[:, :, c]`. -/
def chanSlice (t : Tensor3) (c : ℕ) : Mat :=
  t.map (fun row => row.map (fun cell => cell.getD c 0))

/-- `t.shape[-1]`, the channel count. -/
def chCount (t : Tensor3) : ℕ := ((t.headD []).headD []).length

/-- `t.shape[1]`, the pitch count. -/
def pitchCount (t : Tensor3) : ℕ := (t.headD []).length

/-- `np.mean` over a 2-D array. -/
def meanM (m : Mat) : ℚ :=
  (m.map List.sum).sum / ((m.map List.length).sum : ℕ)

/-- `norm` (lines 158-159): z-scoring `(data - mean) / std`, with
`np.std` supplied as the external function `stdFn`. -/
def normM (stdFn : Mat → ℚ) (m : Mat) : Mat :=
  m.map (fun row => row.map (fun v => (v - meanM m) / stdFn m))

/-- Pointwise binary operation on equal-shaped matrices. -/
def zipWithM (f : ℚ → ℚ → ℚ) (a b : Mat) : Mat :=
  List.zipWith (List.zipWith f) a b

/-- Line 170: `np.where(onset < dura, 0, onset)`. -/
def clipOnset (onset dura : Mat) : Mat :=
  zipWithM (fun o d => if o < d then 0 else o) onset dura

/-- `np.where(m < th, 0, m)` (lines 172 and 176). -/
def threshBelow (m : Mat) (th : ℚ) : Mat :=
  m.map (fun row => row.map (fun v => if v < th then 0 else v))

/-- Pointwise matrix addition (line 175). -/
def addMat (a b : Mat) : Mat := zipWithM (· + ·) a b

/-! ### `interpolation` (lines 142-155) -/

/-- `np.arange(0, stop, step)` for a natural stop. -/
def arange (stop : ℕ) (step : ℚ) : List ℚ :=
  (List.range (Int.toNat ⌈(stop : ℚ) / step⌉)).map (fun (k : ℕ) => (k : ℚ) * step)

/-- `interpolation` (lines 142-155): evaluate the cubic-spline fit of
`data` (the external `splineFit data`, scipy's `CubicSpline`) on the
finer grid `np.arange(0, len(data), tar_t_unit / ori_t_unit)`. -/
def interpolation (splineFit : Mat → ℚ → List ℚ) (data : Mat)
    (ori_t_unit tar_t_unit : ℚ) : Mat :=
  (arange data.length (tar_t_unit / ori_t_unit)).map (splineFit data)

/-! ### `norm_onset_dura` / `norm_split_onset_dura` (lines 162-219) -/

/-- `norm_onset_dura` (lines 162-179).  The two channels are always
interpolated at the default 2x resolution; the onset channel is
clipped against duration, both are z-scored (optionally) and
thresholded, and the result is written into a zero tensor of the
interpolated length. -/
def norm_onset_dura (splineFit : Mat → ℚ → List ℚ) (stdFn : Mat → ℚ)
    (pred : Tensor3) (onset_th dura_th : ℚ)
    (interpolate normalize : Bool) : Tensor3 :=
  let length := if interpolate then 2 * pred.length else pred.length
  let onset0 := interpolation splineFit (chanSlice pred 2) (1/50) (1/100)
  let dura0 := interpolation splineFit (chanSlice pred 1) (1/50) (1/100)
  let onset1 := clipOnset onset0 dura0
  let norm_onset := if normalize then normM stdFn onset1 else onset1
  let onset2 := threshBelow norm_onset onset_th
  let norm_dura :=
    if normalize then addMat (normM stdFn dura0) onset2
    else addMat dura0 onset2
  let dura2 := threshBelow norm_dura dura_th
  (List.range length).map (fun t =>
    (List.range (pitchCount pred)).map (fun p =>
      (List.range (chCount pred)).map (fun c =>
        if c = 2 then getM onset2 t p
        else if c = 1 then getM dura2 t p else 0)))

/-- Pitch-range slice `pred[:, lo:hi]`. -/
def pitchSlice (t : Tensor3) (lo hi : ℕ) : Tensor3 :=
  t.map (fun row => (row.drop lo).take (hi - lo))

/-- `np.hstack` on the pitch axis. -/
def hstack3 (a b : Tensor3) : Tensor3 := List.zipWith (· ++ ·) a b

/-- `norm_split_onset_dura` (lines 182-219): separate thresholds for
the pitch ranges below and at/above `4 * split_bound` (of 352 bins). -/
def norm_split_onset_dura (splineFit : Mat → ℚ → List ℚ)
    (stdFn : Mat → ℚ) (pred : Tensor3)
    (onset_th lower_onset_th : ℚ) (split_bound : ℕ) (dura_th : ℚ)
    (interpolate normalize : Bool) : Tensor3 :=
  let upper_pred := norm_onset_dura splineFit stdFn
    (pitchSlice pred (4 * split_bound) 352) onset_th dura_th
    interpolate normalize
  let lower_pred := norm_onset_dura splineFit stdFn
    (pitchSlice pred 0 (4 * split_bound)) lower_onset_th dura_th
    interpolate normalize
  hstack3 lower_pred upper_pred

/-! ### `note_inference` (lines 246-304) -/

/-- External collaborators and repository helpers outside this slice,
passed as parameters of the embedded pipeline:
scipy's `CubicSpline` fit, `np.std` (on 2-D and 3-D arrays), scipy's
`find_peaks`, and `omnizart.music.utils.down_sample` /
`roll_down_sample` (modelled from the spec: they reduce the 352 pitch
bins to 88; `dsFn` also hands the piece over in the pitch-major view
consumed by `infer_piece`). -/
structure Ext where
  splineFit : Mat → ℚ → List ℚ
  stdM : Mat → ℚ
  stdT : Tensor3 → ℚ
  peaksFn : List ℚ → ℕ → List ℕ
  dsFn : Tensor3 → List (List Frame4)
  rdsFn : Mat → Mat

def sNote : String := "note"
def sFrame : String := "frame"
def sTrueFrame : String := "true_frame"
def sNoteStream : String := "note-stream"
def sFrameStream : String := "frame-stream"
def sStreamSuffix : String := "-stream"

/-- Character-list test: the first list is a leading segment of the
second. -/
def charsPre : List Char → List Char → Bool
  | [], _ => true
  | _, [] => false
  | c :: cs, d :: ds => c = d && charsPre cs ds

/-- Python's `str.startswith`. -/
def strStarts (s pre : String) : Bool := charsPre pre.data s.data

/-- Python's `str.endswith`. -/
def strEnds (s suf : String) : Bool :=
  charsPre suf.data.reverse s.data.reverse

/-- Line 271: `np.where(norm_pred > 0, norm_pred + 1, 0)`. -/
def shiftPos (t : Tensor3) : Tensor3 :=
  t.map (fun row => row.map (fun cell =>
    cell.map (fun v => if 0 < v then v + 1 else 0)))

/-- The frame-mode note assembly (lines 288-298): for each pitch column
of the binarized, pitch-down-sampled `prob`, every retained run of
`find_occur` (with the default `min_duration = 0.03`) becomes a note
whose strength is read from `mix[int(nn["onset"] * t_unit), idx * 4]`. -/
def frame_notes (mix prob : Mat) (t_unit : ℚ) : List NoteC :=
  (List.range (widthM prob)).flatMap (fun idx =>
    (find_occur (colM prob idx) t_unit (3/100)).map (fun oo =>
      ⟨(oo.1 : ℤ), (oo.2 : ℤ),
        getM mix (Int.toNat (pyInt ((oo.1 : ℚ) * t_unit))) (idx * 4),
        idx⟩))

/-- The frame-mode channel merge (lines 276-282): duration channel for
2-channel input, average of channels 1 and 2 for 3-channel input,
`ValueError` otherwise. -/
def frameMix (pred : Tensor3) : Option Mat :=
  if chCount pred = 2 then some (chanSlice pred 1)
  else if chCount pred = 3 then
    some (zipWithM (fun a b => (a + b) / 2) (chanSlice pred 1)
      (chanSlice pred 2))
  else none

/-- The note branch of `note_inference` (lines 257-273): normalize and
threshold the channels, shift positives up by one, down-sample, run
`infer_piece` (with `t_unit=0.01`, hence `shortest = round(0.1/0.01)
= 10` and `offset_interval = round(0.12/0.01) = 12`), and emit MIDI at
half the time unit. -/
def noteBranch (E : Ext) (pred : Tensor3) (onset_th : ℚ)
    (lower_onset_th : Option ℚ) (split_bound : ℕ) (dura_th : ℚ)
    (normalize : Bool) (t_unit : ℚ) : List Track :=
  let norm_pred :=
    match lower_onset_th with
    | some lot =>
        norm_split_onset_dura E.splineFit E.stdM pred onset_th lot
          split_bound dura_th true normalize
    | none =>
        norm_onset_dura E.splineFit E.stdM pred onset_th dura_th
          true normalize
  to_midi (infer_piece E.peaksFn (E.dsFn (shiftPos norm_pred)) 10 12)
    (t_unit / 2)

/-- The frame branch of `note_inference` (lines 275-299): merge the
channels, binarize against `frm_th`, down-sample the pitch axis and
collect runs. -/
def frameBranch (E : Ext) (pred : Tensor3) (frm_th : ℚ)
    (normalize : Bool) (t_unit : ℚ) : Option (List Track) :=
  match frameMix pred with
  | none => none
  | some mix =>
      let prob := if normalize then normM E.stdM mix else mix
      let prob := prob.map (fun row =>
        row.map (fun v => if frm_th < v then (1 : ℚ) else 0))
      some (to_midi (frame_notes mix (E.rdsFn prob) t_unit) t_unit)

/-- `note_inference` (lines 246-304).  The result is the instrument
list of the returned `pretty_midi` object (`none` embeds a raised
`ValueError`). -/
def note_inference (E : Ext) (pred : Tensor3) (mode : String)
    (onset_th : ℚ) (lower_onset_th : Option ℚ) (split_bound : ℕ)
    (dura_th frm_th : ℚ) (normalize : Bool) (t_unit : ℚ) :
    Option (List Track) :=
  if strStarts mode sNote then
    some (noteBranch E pred onset_th lower_onset_th split_bound dura_th
      normalize t_unit)
  else if strStarts mode sFrame ∨ mode = sTrueFrame then
    frameBranch E pred frm_th normalize t_unit
  else none

/-! ### `multi_inst_note_inference` (lines 307-423) -/

/-- Mode dispatch of lines 354-363: the effective mode string and the
channel count per instrument (`true_frame` is rewritten to `frame`
with one channel). -/
def chModeOf (mode : String) : Option (String × ℕ) :=
  if mode = sNoteStream ∨ mode = sNote then some (mode, 2)
  else if mode = sFrameStream ∨ mode = sFrame then some (mode, 2)
  else if mode = sTrueFrame then some (sFrame, 1)
  else none

/-- `np.mean` over a 3-D array. -/
def mean3 (t : Tensor3) : ℚ :=
  (t.map (fun r => (r.map List.sum).sum)).sum /
    ((t.map (fun r => (r.map List.length).sum)).sum : ℕ)

/-- `norm` applied to a 3-D array (line 372). -/
def norm3 (stdT : Tensor3 → ℚ) (x : Tensor3) : Tensor3 :=
  x.map (fun row => row.map (fun cell =>
    cell.map (fun v => (v - mean3 x) / stdT x)))

/-- Channel grouping of line 371:
`pred[:, :, [it * ch_per_inst + i + 1 for it in range(iters)]]`. -/
def instItem (pred : Tensor3) (ch iters i : ℕ) : Tensor3 :=
  pred.map (fun row => row.map (fun cell =>
    (List.range iters).map (fun it => cell.getD (it * ch + i + 1) 0)))

/-- The channel container of lines 366-372. -/
def containerOf (stdT : Tensor3 → ℚ) (pred : Tensor3)
    (ch iters : ℕ) (normalize : Bool) : List Tensor3 :=
  (List.range ch).map (fun i =>
    let item := instItem pred ch iters i
    if normalize then norm3 stdT item else item)

/-- The merge step of lines 378-381 for non-stream modes:
`pp[:, :, 0] = np.average(pp, axis=2)`. -/
def mergeFirst (x : Tensor3) : Tensor3 :=
  x.map (fun row => row.map (fun cell =>
    match cell with
    | [] => []
    | _ :: rest => cell.sum / (cell.length : ℚ) :: rest))

/-- Channel slice `x[:, :, i]` of a 3-D list tensor. -/
def slice2 (x : Tensor3) (i : ℕ) : Mat :=
  x.map (fun row => row.map (fun cell => cell.getD i 0))

/-- The presence statistic of lines 391-395 for instrument `i`:
the channel-averaged standard deviation `std / ch_per_inst`. -/
def avgStd (stdM : Mat → ℚ) (container : List Tensor3) (ch i : ℕ) : ℚ :=
  ((List.range ch).map (fun ii =>
    stdM (slice2 (container.getD ii []) i))).sum / (ch : ℚ)

/-- `np.dstack([zeros] + normed_ch)` of line 406:
a zero channel in front of the instrument's channels, on the
time × pitch shape of `pred`. -/
def stack3 (T P : ℕ) (chs : List Mat) : Tensor3 :=
  (List.range T).map (fun t =>
    (List.range P).map (fun p => (0 : ℚ) :: chs.map (fun m => getM m t p)))

/-- Per-instrument dispatch (lines 406-420): build the stacked
prediction and run `note_inference`; the track is
`midi.instruments[0].notes`. -/
def instTrack (E : Ext) (pred : Tensor3) (container : List Tensor3)
    (ch : ℕ) (mode : String) (onset_th dura_th frm_th : ℚ)
    (normalize : Bool) (t_unit : ℚ) (i : ℕ) : Option Track :=
  let normed := (List.range ch).map (fun ii =>
    slice2 (container.getD ii []) i)
  let pp := stack3 pred.length (pitchCount pred) normed
  match note_inference E pp mode onset_th none 36 dura_th frm_th
      normalize t_unit with
  | none => none
  | some trs => some (trs.getD 0 [])

/-- One iteration of the instrument loop (lines 389-421): skip the
instrument when `iters > 1` and its averaged channel standard
deviation is strictly below `inst_th`, otherwise append its track
(paired with its MIDI program number from the channel-program
mapping). -/
def instStep (E : Ext) (pred : Tensor3) (container : List Tensor3)
    (ch iters : ℕ) (mode : String) (onset_th dura_th frm_th inst_th : ℚ)
    (normalize : Bool) (t_unit : ℚ) (mapping : List ℕ)
    (acc : Option (List (ℕ × Track))) (i : ℕ) :
    Option (List (ℕ × Track)) :=
  match acc with
  | none => none
  | some ts =>
      if 1 < iters ∧ avgStd E.stdM container ch i < inst_th then some ts
      else
        match instTrack E pred container ch mode onset_th dura_th frm_th
            normalize t_unit i with
        | none => none
        | some tr => some (ts ++ [(mapping.getD i 0, tr)])

/-- Effective instrument-iteration count (lines 367 and 374-377): the
merge branch of non-stream modes collapses everything into a single
iteration. -/
def multiIters (pred : Tensor3) (mode2 : String) (ch : ℕ) : ℕ :=
  if ¬strEnds mode2 sStreamSuffix ∧ mode2 ≠ sTrueFrame then 1
  else (chCount pred - 1) / ch

/-- Effective channel container (lines 366-381): the per-kind channel
groups, with the first channel replaced by the per-cell average in the
merge branch of non-stream modes. -/
def multiContainer (E : Ext) (pred : Tensor3) (mode2 : String) (ch : ℕ)
    (normalize : Bool) : List Tensor3 :=
  if ¬strEnds mode2 sStreamSuffix ∧ mode2 ≠ sTrueFrame then
    (containerOf E.stdT pred ch ((chCount pred - 1) / ch)
      normalize).map mergeFirst
  else containerOf E.stdT pred ch ((chCount pred - 1) / ch) normalize

/-- `multi_inst_note_inference` (lines 307-423) with scalar thresholds
(`threshold_type_converter` turns a scalar into a constant
per-instrument list, so the scalar is used for every instrument).
`none` embeds a raised `ValueError` or a failed assertion; the result
pairs each emitted track with its MIDI program number
(`channel_program_mapping[i]`; the display-name lookup of line 418 is
presentation only and not embedded). -/
def multi_inst_note_inference (E : Ext) (pred : Tensor3) (mode : String)
    (onset_th dura_th frm_th inst_th : ℚ) (normalize : Bool)
    (t_unit : ℚ) (mapping : List ℕ) : Option (List (ℕ × Track)) :=
  match chModeOf mode with
  | none => none
  | some mc =>
      if ((chCount pred : ℤ) - 1) % (mc.2 : ℤ) ≠ 0 then none
      else
        (List.range (multiIters pred mc.1 mc.2)).foldl
          (instStep E pred (multiContainer E pred mc.1 mc.2 normalize)
            mc.2 (multiIters pred mc.1 mc.2) mc.1 onset_th dura_th
            frm_th inst_th normalize t_unit mapping)
          (some [])

/-! ## Characterization of the refinement pass (lines 27-36) -/

/-- Declarative description of what the refinement loop does to the
note at position `idx`: scan `[peaks[idx], upper)` for the first
zero-summing forward window of the duration channel; when found too
close to the note's start, leave the note alone (it gets marked for
deletion instead), otherwise move the note's end there. -/
def refinedAt (w_dura : List ℚ) (peaks : List ℕ) (shortest oi idx : ℕ)
    (nt : NoteC) : NoteC :=
  match findZero w_dura oi (peaks.getD idx 0)
      (scanUpper peaks w_dura.length idx) with
  | none => nt
  | some i =>
      if (i : ℤ) - nt.start < (shortest : ℤ) then nt
      else { nt with stop := (i : ℤ) }

/-- Declarative description of whether the refinement loop marks the
note at position `idx` for deletion. -/
def deletedAt (w_dura : List ℚ) (peaks : List ℕ) (shortest oi : ℕ)
    (notes0 : List NoteC) (idx : ℕ) : Bool :=
  match findZero w_dura oi (peaks.getD idx 0)
      (scanUpper peaks w_dura.length idx) with
  | none => false
  | some i => (i : ℤ) - (notes0.getD idx default).start < (shortest : ℤ)

/-- Refinement fold truncated after the first `n` peak indices. -/
def refineFoldN (w_dura : List ℚ) (peaks : List ℕ) (shortest oi : ℕ)
    (notes0 : List NoteC) (n : ℕ) : List NoteC × List ℕ :=
  (List.range n).foldl (refineStep w_dura peaks shortest oi) (notes0, [])

lemma refineFoldN_succ (w_dura : List ℚ) (peaks : List ℕ)
    (shortest oi : ℕ) (notes0 : List NoteC) (n : ℕ) :
    refineFoldN w_dura peaks shortest oi notes0 (n + 1) =
      refineStep w_dura peaks shortest oi
        (refineFoldN w_dura peaks shortest oi notes0 n) n := by
  unfold refineFoldN
  rw [List.range_succ, List.foldl_append, List.foldl_cons, List.foldl_nil]

lemma refineAll_eq_foldN (w_dura : List ℚ) (peaks : List ℕ)
    (shortest oi : ℕ) (notes0 : List NoteC) :
    refineAll w_dura peaks shortest oi notes0 =
      refineFoldN w_dura peaks shortest oi notes0 peaks.length := rfl

lemma refineStep_none {w_dura : List ℚ} {peaks : List ℕ}
    {shortest oi : ℕ} (st : List NoteC × List ℕ) {idx : ℕ}
    (h : findZero w_dura oi (peaks.getD idx 0)
      (scanUpper peaks w_dura.length idx) = none) :
    refineStep w_dura peaks shortest oi st idx = st := by
  simp only [refineStep, h]

lemma refineStep_del {w_dura : List ℚ} {peaks : List ℕ}
    {shortest oi : ℕ} (st : List NoteC × List ℕ) {idx i : ℕ}
    (h : findZero w_dura oi (peaks.getD idx 0)
      (scanUpper peaks w_dura.length idx) = some i)
    (hs : (i : ℤ) - (st.1.getD idx default).start < (shortest : ℤ)) :
    refineStep w_dura peaks shortest oi st idx = (st.1, st.2 ++ [idx]) := by
  simp only [refineStep, h, if_pos hs]

lemma refineStep_set {w_dura : List ℚ} {peaks : List ℕ}
    {shortest oi : ℕ} (st : List NoteC × List ℕ) {idx i : ℕ}
    (h : findZero w_dura oi (peaks.getD idx 0)
      (scanUpper peaks w_dura.length idx) = some i)
    (hs : ¬(i : ℤ) - (st.1.getD idx default).start < (shortest : ℤ)) :
    refineStep w_dura peaks shortest oi st idx =
      (st.1.set idx { st.1.getD idx default with stop := (i : ℤ) },
        st.2) := by
  simp only [refineStep, h, if_neg hs]

lemma refinedAt_none {w_dura : List ℚ} {peaks : List ℕ}
    {shortest oi idx : ℕ} {nt : NoteC}
    (h : findZero w_dura oi (peaks.getD idx 0)
      (scanUpper peaks w_dura.length idx) = none) :
    refinedAt w_dura peaks shortest oi idx nt = nt := by
  simp only [refinedAt, h]

lemma refinedAt_some {w_dura : List ℚ} {peaks : List ℕ}
    {shortest oi idx i : ℕ} {nt : NoteC}
    (h : findZero w_dura oi (peaks.getD idx 0)
      (scanUpper peaks w_dura.length idx) = some i) :
    refinedAt w_dura peaks shortest oi idx nt =
      if (i : ℤ) - nt.start < (shortest : ℤ) then nt
      else { nt with stop := (i : ℤ) } := by
  simp only [refinedAt, h]

lemma deletedAt_eq_false {w_dura : List ℚ} {peaks : List ℕ}
    {shortest oi idx : ℕ} {notes0 : List NoteC}
    (h : findZero w_dura oi (peaks.getD idx 0)
      (scanUpper peaks w_dura.length idx) = none) :
    deletedAt w_dura peaks shortest oi notes0 idx = false := by
  simp only [deletedAt, h]

lemma deletedAt_eq_decide {w_dura : List ℚ} {peaks : List ℕ}
    {shortest oi idx i : ℕ} {notes0 : List NoteC}
    (h : findZero w_dura oi (peaks.getD idx 0)
      (scanUpper peaks w_dura.length idx) = some i) :
    deletedAt w_dura peaks shortest oi notes0 idx =
      decide ((i : ℤ) - (notes0.getD idx default).start <
        (shortest : ℤ)) := by
  simp only [deletedAt, h]

lemma refineFold_spec (w_dura : List ℚ) (peaks : List ℕ)
    (shortest oi : ℕ) (notes0 : List NoteC) (n : ℕ) :
    (refineFoldN w_dura peaks shortest oi notes0 n).1.length =
        notes0.length ∧
      (∀ j, n ≤ j →
        (refineFoldN w_dura peaks shortest oi notes0 n).1.getD j default =
          notes0.getD j default) ∧
      (∀ j, j < n → j < notes0.length →
        (refineFoldN w_dura peaks shortest oi notes0 n).1.getD j default =
          refinedAt w_dura peaks shortest oi j (notes0.getD j default)) ∧
      (refineFoldN w_dura peaks shortest oi notes0 n).2 =
        (List.range n).filter
          (fun j => deletedAt w_dura peaks shortest oi notes0 j) := by
  induction n with
  | zero =>
      exact ⟨rfl, fun _ _ => rfl,
        fun j hj _ => absurd hj (Nat.not_lt_zero j), rfl⟩
  | succ n ih =>
      obtain ⟨hlen, huntouched, hdone, hdel⟩ := ih
      set st := refineFoldN w_dura peaks shortest oi notes0 n with hst
      have hget : st.1.getD n default = notes0.getD n default :=
        huntouched n le_rfl
      rw [refineFoldN_succ, ← hst]
      cases hfz : findZero w_dura oi (peaks.getD n 0)
          (scanUpper peaks w_dura.length n) with
      | none =>
          rw [refineStep_none st hfz]
          refine ⟨hlen, fun j hj => huntouched j (Nat.le_of_succ_le hj),
            fun j hj hjl => ?_, ?_⟩
          · rcases Nat.lt_succ_iff_lt_or_eq.mp hj with hj | rfl
            · exact hdone j hj hjl
            · rw [hget, refinedAt_none hfz]
          · rw [hdel, List.range_succ, List.filter_append]
            simp [deletedAt_eq_false hfz]
      | some i =>
          by_cases hshort :
              (i : ℤ) - (notes0.getD n default).start < (shortest : ℤ)
          · rw [refineStep_del st hfz (by rw [hget]; exact hshort)]
            refine ⟨hlen, fun j hj => huntouched j (Nat.le_of_succ_le hj),
              fun j hj hjl => ?_, ?_⟩
            · rcases Nat.lt_succ_iff_lt_or_eq.mp hj with hj | rfl
              · exact hdone j hj hjl
              · rw [hget, refinedAt_some hfz, if_pos hshort]
            · rw [hdel, List.range_succ, List.filter_append]
              have hdec : deletedAt w_dura peaks shortest oi notes0 n = true := by
                rw [deletedAt_eq_decide hfz]; exact decide_eq_true hshort
              simp [List.filter_cons, hdec]
          · rw [refineStep_set st hfz (by rw [hget]; exact hshort)]
            refine ⟨by rw [List.length_set, hlen], fun j hj => ?_,
              fun j hj hjl => ?_, ?_⟩
            · have hne : n ≠ j := by omega
              rw [List.getD_eq_getElem?_getD, List.getElem?_set_ne hne,
                ← List.getD_eq_getElem?_getD]
              exact huntouched j (Nat.le_of_succ_le hj)
            · rcases Nat.lt_succ_iff_lt_or_eq.mp hj with hj | rfl
              · have hne : n ≠ j := by omega
                rw [List.getD_eq_getElem?_getD, List.getElem?_set_ne hne,
                  ← List.getD_eq_getElem?_getD]
                exact hdone j hj hjl
              · rw [List.getD_eq_getElem?_getD,
                  List.getElem?_set_self (by rw [hlen]; exact hjl),
                  Option.getD_some, hget, refinedAt_some hfz, if_neg hshort]
            · rw [hdel, List.range_succ, List.filter_append]
              have hdec : deletedAt w_dura peaks shortest oi notes0 n = false := by
                rw [deletedAt_eq_decide hfz]
                exact decide_eq_false hshort
              simp [List.filter_cons, hdec]

/-- The imperative refinement fold equals its declarative per-index
description. -/
lemma refineAll_eq (w_dura : List ℚ) (peaks : List ℕ)
    (shortest oi : ℕ) (notes0 : List NoteC)
    (h : notes0.length = peaks.length) :
    refineAll w_dura peaks shortest oi notes0 =
      ((List.range peaks.length).map
          (fun j => refinedAt w_dura peaks shortest oi j
            (notes0.getD j default)),
        (List.range peaks.length).filter
          (fun j => deletedAt w_dura peaks shortest oi notes0 j)) := by
  obtain ⟨hlen, _, hdone, hdel⟩ :=
    refineFold_spec w_dura peaks shortest oi notes0 peaks.length
  rw [refineAll_eq_foldN]
  refine Prod.ext ?_ hdel
  apply List.ext_getElem
  · simp [hlen, h]
  · intro j h1 h2
    have hj : j < peaks.length := by simpa using h2
    have hjl : j < notes0.length := h ▸ hj
    have := hdone j hj hjl
    rw [List.getD_eq_getElem _ _ (by omega : j < _)] at this
    simp only [List.getElem_map, List.getElem_range]
    exact this

/-! ## The deletion loop versus a filter pass (lines 38-39) -/

/-- The filter pass described by the spec: walk the candidate list
with its index, dropping exactly the indices in `del`. -/
def keepAux (del : List ℕ) : ℕ → List NoteC → List NoteC
  | _, [] => []
  | j, a :: as =>
      if j ∈ del then keepAux del (j + 1) as
      else a :: keepAux del (j + 1) as

lemma keepAux_nil : ∀ (m : ℕ) (as : List NoteC), keepAux [] m as = as
  | _, [] => rfl
  | m, a :: as => by
      show (if m ∈ ([] : List ℕ) then _ else _) = _
      simp [keepAux_nil (m + 1) as]

lemma keepAux_congr (d1 d2 : List ℕ) :
    ∀ (as : List NoteC) (m : ℕ),
      (∀ x, m ≤ x → (x ∈ d1 ↔ x ∈ d2)) →
      keepAux d1 m as = keepAux d2 m as
  | [], _, _ => rfl
  | a :: as, m, h => by
      have hm := h m le_rfl
      have ih := keepAux_congr d1 d2 as (m + 1)
        (fun x hx => h x (Nat.le_of_succ_le hx))
      show (if m ∈ d1 then _ else _) = (if m ∈ d2 then _ else _)
      by_cases hmem : m ∈ d1
      · rw [if_pos hmem, if_pos (hm.mp hmem), ih]
      · rw [if_neg hmem, if_neg (fun hh => hmem (hm.mpr hh)), ih]

lemma delLoop_nil : ∀ (del : List ℕ) (ii : ℕ), delLoop [] del ii = []
  | [], _ => rfl
  | i :: rest, ii => by
      show delLoop (List.eraseIdx [] (i - ii)) rest (ii + 1) = []
      rw [List.eraseIdx_nil]
      exact delLoop_nil rest (ii + 1)

lemma delLoop_peel :
    ∀ (del : List ℕ) (a : NoteC) (as : List NoteC) (ii : ℕ),
      del.Pairwise (· < ·) → (∀ d ∈ del, ii < d) →
      delLoop (a :: as) del ii = a :: delLoop as del (ii + 1)
  | [], _, _, _, _, _ => rfl
  | i :: rest, a, as, ii, hp, hlt => by
      have hi : ii < i := hlt i (List.mem_cons_self i rest)
      have hpc := List.pairwise_cons.mp hp
      have hrest : ∀ d ∈ rest, ii + 1 < d := fun d hd =>
        Nat.lt_of_le_of_lt (Nat.succ_le_of_lt hi) (hpc.1 d hd)
      have hsub : i - ii = (i - (ii + 1)) + 1 := by omega
      show delLoop ((a :: as).eraseIdx (i - ii)) rest (ii + 1) =
        a :: delLoop (as.eraseIdx (i - (ii + 1))) rest (ii + 1 + 1)
      rw [hsub]
      exact delLoop_peel rest a (as.eraseIdx (i - (ii + 1))) (ii + 1)
        hpc.2 hrest

lemma delLoop_eq_keepAux :
    ∀ (notes : List NoteC) (del : List ℕ) (ii : ℕ),
      del.Pairwise (· < ·) → (∀ d ∈ del, ii ≤ d) →
      delLoop notes del ii = keepAux del ii notes := by
  intro notes
  induction notes with
  | nil => intro del ii _ _; rw [delLoop_nil]; rfl
  | cons a as ih =>
      intro del ii hp hle
      match del with
      | [] => rw [keepAux_nil]; rfl
      | i :: rest =>
          have hpc := List.pairwise_cons.mp hp
          rcases Nat.eq_or_lt_of_le (hle i (List.mem_cons_self i rest)) with heq | hlt
          · subst heq
            have hstep : delLoop (a :: as) (ii :: rest) ii =
                delLoop as rest (ii + 1) := by
              show delLoop ((a :: as).eraseIdx (ii - ii)) rest (ii + 1) = _
              rw [Nat.sub_self]
              rfl
            rw [hstep, ih rest (ii + 1) hpc.2
              (fun d hd => Nat.succ_le_of_lt (hpc.1 d hd))]
            show _ = if ii ∈ ii :: rest then _ else _
            rw [if_pos (List.mem_cons_self ii rest)]
            exact keepAux_congr rest (ii :: rest) as (ii + 1)
              (fun x hx => ⟨fun h => List.mem_cons_of_mem _ h,
                fun h => by
                  rcases List.mem_cons.mp h with rfl | h
                  · omega
                  · exact h⟩)
          · have hall : ∀ d ∈ i :: rest, ii < d := by
              intro d hd
              rcases List.mem_cons.mp hd with rfl | hd
              · exact hlt
              · exact Nat.lt_trans hlt (hpc.1 d hd)
            rw [delLoop_peel (i :: rest) a as ii hp hall,
              ih (i :: rest) (ii + 1) hp (fun d hd => hall d hd)]
            show _ = if ii ∈ i :: rest then _ else _
            rw [if_neg (fun hmem => Nat.lt_irrefl ii (hall ii hmem))]

/-! ## Structural facts feeding the note-event invariants -/

lemma adjustOf_nonneg (shortest : ℕ) : 0 ≤ adjustOf shortest := by
  unfold adjustOf; split <;> norm_num

lemma provisional_pos (w_on : List ℚ) (adjust : ℤ) (hadj : 0 ≤ adjust) :
    ∀ (peaks : List ℕ), peaks.Chain' (· < ·) →
      (∀ p ∈ peaks, p < w_on.length) →
      ∀ nt ∈ provisional w_on adjust peaks, nt.start < nt.stop
  | [], _, _ => by intro nt h; cases h
  | [p], _, hb => by
      intro nt h
      rcases List.mem_singleton.mp h with rfl
      have hp : p < w_on.length := hb p (List.mem_cons_self p [])
      show (p : ℤ) - adjust < (w_on.length : ℤ)
      have : (p : ℤ) < (w_on.length : ℤ) := by exact_mod_cast hp
      omega
  | p :: q :: rest, hc, hb => by
      intro nt h
      rcases List.mem_cons.mp h with rfl | h
      · show (p : ℤ) - adjust < (q : ℤ) - adjust
        have hpq : p < q := (List.chain'_cons.mp hc).1
        have : (p : ℤ) < (q : ℤ) := by exact_mod_cast hpq
        omega
      · exact provisional_pos w_on adjust hadj (q :: rest)
          (List.chain'_cons.mp hc).2
          (fun x hx => hb x (List.mem_cons_of_mem p hx)) nt h

lemma provisional_length (w_on : List ℚ) (adjust : ℤ) :
    ∀ (peaks : List ℕ),
      (provisional w_on adjust peaks).length = peaks.length
  | [] => rfl
  | [_] => rfl
  | _ :: q :: rest => by
      show (provisional w_on adjust (q :: rest)).length + 1 = _
      rw [provisional_length w_on adjust (q :: rest)]
      rfl

lemma refineAll_pos (w_dura : List ℚ) (peaks : List ℕ)
    (shortest oi : ℕ) (notes0 : List NoteC) (hsh : 1 ≤ shortest)
    (h0 : ∀ nt ∈ notes0, nt.start < nt.stop) :
    ∀ nt ∈ (refineAll w_dura peaks shortest oi notes0).1,
      nt.start < nt.stop := by
  unfold refineAll
  have key : ∀ (st : List NoteC × List ℕ),
      (∀ nt ∈ st.1, nt.start < nt.stop) → ∀ idx,
      ∀ nt ∈ (refineStep w_dura peaks shortest oi st idx).1,
        nt.start < nt.stop := by
    intro st hst idx nt hmem
    rcases hfz : findZero w_dura oi (peaks.getD idx 0)
        (scanUpper peaks w_dura.length idx) with _ | i
    · rw [refineStep_none st hfz] at hmem; exact hst nt hmem
    · by_cases hshort : (i : ℤ) - (st.1.getD idx default).start <
          (shortest : ℤ)
      · rw [refineStep_del st hfz hshort] at hmem; exact hst nt hmem
      · rw [refineStep_set st hfz hshort] at hmem
        rcases List.mem_or_eq_of_mem_set hmem with hmem | rfl
        · exact hst nt hmem
        · show (st.1.getD idx default).start < (i : ℤ)
          have : (shortest : ℤ) ≤ (i : ℤ) -
              (st.1.getD idx default).start := le_of_not_lt hshort
          omega
  exact List.foldlRecOn (List.range peaks.length) _ (notes0, []) h0
    (fun st hst idx _ => key st hst idx)

lemma delLoop_sublist :
    ∀ (del : List ℕ) (notes : List NoteC) (ii : ℕ),
      (delLoop notes del ii).Sublist notes
  | [], _, _ => List.Sublist.refl _
  | i :: rest, notes, ii =>
      (delLoop_sublist rest (notes.eraseIdx (i - ii)) (ii + 1)).trans
        (List.eraseIdx_sublist notes (i - ii))

/-- Every note produced by `infer_pitch` spans at least one frame,
provided the peaks are strictly increasing in-range indices and
`shortest` is positive. -/
lemma infer_pitch_pos (peaks : List ℕ) (w_on w_dura : List ℚ)
    (shortest oi : ℕ) (hsh : 1 ≤ shortest)
    (hchain : peaks.Chain' (· < ·))
    (hbound : ∀ p ∈ peaks, p < w_on.length) :
    ∀ nt ∈ infer_pitch_from_peaks peaks w_on w_dura shortest oi,
      nt.start < nt.stop := by
  intro nt hmem
  unfold infer_pitch_from_peaks at hmem
  match peaks, hchain, hbound, hmem with
  | [], _, _, hmem => cases hmem
  | p :: ps, hchain, hbound, hmem =>
      have h0 := provisional_pos w_on (adjustOf shortest)
        (adjustOf_nonneg shortest) (p :: ps) hchain hbound
      have h1 := refineAll_pos w_dura (p :: ps) shortest oi
        (provisional w_on (adjustOf shortest) (p :: ps)) hsh h0
      exact h1 nt ((delLoop_sublist _ _ 0).subset hmem)

/-- Candidates gathered over the pitch rows are positive-length and
carry a pitch tag below the row count (relative to the running
index). -/
lemma gatherNotes_wf (peaksFn : List ℚ → ℕ → List ℕ)
    (hpk : PeaksSpec peaksFn) (shortest oi : ℕ) (hsh : 1 ≤ shortest) :
    ∀ (rows : List (List Frame4)) (i : ℕ),
      ∀ n ∈ gatherNotes peaksFn shortest oi i rows,
        n.start < n.stop ∧ n.pitch < i + rows.length
  | [], _ => by intro n h; cases h
  | row :: rest, i => by
      intro n hmem
      rcases List.mem_append.mp hmem with hl | hr
      · by_cases hz : rowSum row ≤ 0
        · rw [if_pos hz] at hl; cases hl
        · rw [if_neg hz] at hl
          rcases List.mem_map.mp hl with ⟨m, hm, rfl⟩
          have hchain : (peaksFn (wOn row) shortest).Chain' (· < ·) :=
            ((hpk (wOn row) shortest).1).imp (fun a b h => h.2)
          have hbound := (hpk (wOn row) shortest).2
          refine ⟨infer_pitch_pos _ _ _ _ _ hsh hchain hbound m hm, ?_⟩
          show i < i + (rest.length + 1)
          omega
      · have := gatherNotes_wf peaksFn hpk shortest oi hsh rest (i + 1) n hr
        refine ⟨this.1, ?_⟩
        have h2 := this.2
        simp only [List.length_cons]
        omega

/-! ## Sorting and alignment -/

lemma insertByStart_perm (n : NoteC) :
    ∀ (l : List NoteC), (insertByStart n l).Perm (n :: l)
  | [] => List.Perm.refl _
  | m :: rest => by
      unfold insertByStart
      by_cases h : n.start < m.start
      · rw [if_pos h]
      · rw [if_neg h]
        exact ((insertByStart_perm n rest).cons m).trans
          (List.Perm.swap n m rest)

lemma sortByStart_perm :
    ∀ (l : List NoteC), (sortByStart l).Perm l
  | [] => List.Perm.refl _
  | n :: rest =>
      (insertByStart_perm n (sortByStart rest)).trans
        ((sortByStart_perm rest).cons n)

lemma insertByStart_sorted (n : NoteC) :
    ∀ (l : List NoteC),
      l.Pairwise (fun a b => a.start ≤ b.start) →
      (insertByStart n l).Pairwise (fun a b => a.start ≤ b.start)
  | [], _ => List.pairwise_singleton _ _
  | m :: rest, h => by
      obtain ⟨hm, hrest⟩ := List.pairwise_cons.mp h
      unfold insertByStart
      by_cases hlt : n.start < m.start
      · rw [if_pos hlt]
        refine List.pairwise_cons.mpr ⟨?_, h⟩
        intro a ha
        rcases List.mem_cons.mp ha with rfl | ha
        · exact le_of_lt hlt
        · exact (le_of_lt hlt).trans (hm a ha)
      · rw [if_neg hlt]
        refine List.pairwise_cons.mpr ⟨?_, insertByStart_sorted n rest hrest⟩
        intro a ha
        rcases (insertByStart_perm n rest).mem_iff.mp ha with ha
        rcases List.mem_cons.mp ha with rfl | ha
        · exact le_of_not_lt hlt
        · exact hm a ha

lemma sortByStart_sorted :
    ∀ (l : List NoteC),
      (sortByStart l).Pairwise (fun a b => a.start ≤ b.start)
  | [] => List.Pairwise.nil
  | n :: rest => insertByStart_sorted n (sortByStart rest)
      (sortByStart_sorted rest)

lemma alignLoop_length (last : ℤ) :
    ∀ (l : List NoteC), (alignLoop last l).length = l.length
  | [] => rfl
  | n :: rest => by
      unfold alignLoop
      by_cases h : n.start - last < 1
      · rw [if_pos h]
        show (alignLoop last rest).length + 1 = rest.length + 1
        rw [alignLoop_length last rest]
      · rw [if_neg h]
        show (alignLoop n.start rest).length + 1 = rest.length + 1
        rw [alignLoop_length n.start rest]

/-- Every aligned note keeps its duration, strength and pitch from
some input note. -/
lemma alignLoop_shape (last : ℤ) :
    ∀ (l : List NoteC), ∀ m ∈ alignLoop last l,
      ∃ n ∈ l, m.stop - m.start = n.stop - n.start ∧
        m.stren = n.stren ∧ m.pitch = n.pitch
  | [] => by intro m h; cases h
  | n :: rest => by
      intro m hmem
      unfold alignLoop at hmem
      by_cases h : n.start - last < 1
      · rw [if_pos h] at hmem
        rcases List.mem_cons.mp hmem with rfl | hmem
        · exact ⟨n, List.mem_cons_self n rest, by dsimp; ring_nf, rfl, rfl⟩
        · obtain ⟨nn, hnn, hs⟩ := alignLoop_shape last rest m hmem
          exact ⟨nn, List.mem_cons_of_mem n hnn, hs⟩
      · rw [if_neg h] at hmem
        rcases List.mem_cons.mp hmem with heq | hmem
        · exact ⟨n, List.mem_cons_self n rest, by rw [heq], by rw [heq],
            by rw [heq]⟩
        · obtain ⟨nn, hnn, hs⟩ := alignLoop_shape n.start rest m hmem
          exact ⟨nn, List.mem_cons_of_mem n hnn, hs⟩

/-- Aligned starts never drop below the (nonnegative) running
last-accepted start. -/
lemma alignLoop_start_nonneg (last : ℤ) (hlast : 0 ≤ last) :
    ∀ (l : List NoteC), ∀ m ∈ alignLoop last l, 0 ≤ m.start
  | [] => by intro m h; cases h
  | n :: rest => by
      intro m hmem
      unfold alignLoop at hmem
      by_cases h : n.start - last < 1
      · rw [if_pos h] at hmem
        rcases List.mem_cons.mp hmem with rfl | hmem
        · show 0 ≤ n.start - (n.start - last); omega
        · exact alignLoop_start_nonneg last hlast rest m hmem
      · rw [if_neg h] at hmem
        rcases List.mem_cons.mp hmem with rfl | hmem
        · omega
        · exact alignLoop_start_nonneg n.start (by omega) rest m hmem


/-- On a start-sorted list, the alignment pass (with running start 0)
snaps every note whose start is below one frame exactly onto frame 0,
shifting its end by the same amount. -/
lemma alignLoop_snap :
    ∀ (l : List NoteC), l.Pairwise (fun a b => a.start ≤ b.start) →
      ∀ (k : ℕ) (hk : k < l.length), (l.get ⟨k, hk⟩).start < 1 →
      (alignLoop 0 l).getD k default =
        ⟨0, (l.get ⟨k, hk⟩).stop - (l.get ⟨k, hk⟩).start,
          (l.get ⟨k, hk⟩).stren, (l.get ⟨k, hk⟩).pitch⟩
  | [], _, k, hk, _ => absurd hk (Nat.not_lt_zero k)
  | n :: rest, hsorted, k, hk, hlt => by
      obtain ⟨hhead, htail⟩ := List.pairwise_cons.mp hsorted
      match k, hk, hlt with
      | 0, hk, hlt =>
          have hcond : n.start - 0 < 1 := by
            simpa using hlt
          have hstep : alignLoop 0 (n :: rest) = { n with start := n.start - (n.start - 0), stop := n.stop - (n.start - 0) } :: alignLoop 0 rest := by
            unfold alignLoop
            rw [if_pos hcond]
            congr 1
            cases rest <;> rfl
          rw [hstep]
          show ({ n with start := n.start - (n.start - 0), stop := n.stop - (n.start - 0) } : NoteC) = _
          have h1 : n.start - (n.start - 0) = 0 := by omega
          have h2 : n.stop - (n.start - 0) = n.stop - n.start := by omega
          rw [h1, h2]
          rfl
      | k + 1, hk, hlt =>
          have hk' : k < rest.length := by
            simpa using hk
          have hget : (n :: rest).get ⟨k + 1, hk⟩ = rest.get ⟨k, hk'⟩ := rfl
          rw [hget] at hlt ⊢
          by_cases hcond : n.start - 0 < 1
          · unfold alignLoop
            rw [if_pos hcond]
            show (alignLoop 0 rest).getD k default = _
            exact alignLoop_snap rest htail k hk' hlt
          · exfalso
            have h1 : (1 : ℤ) ≤ n.start := by omega
            have h2 : n.start ≤ (rest.get ⟨k, hk'⟩).start :=
              hhead _ (rest.get_mem _ _)
            omega

/-! ## Velocity mapping facts -/

lemma fmms_fold (notes : List NoteC) :
    ∀ (mn mx : ℚ),
      notes.foldl
        (fun mm nn =>
          (if nn.stren < mm.1 then nn.stren else mm.1,
           if mm.2 < nn.stren then nn.stren else mm.2)) (mn, mx) =
      ((notes.map NoteC.stren).foldl min mn,
       (notes.map NoteC.stren).foldl max mx) := by
  induction notes with
  | nil => intro mn mx; rfl
  | cons nn rest ih =>
      intro mn mx
      rw [List.foldl_cons, List.map_cons, List.foldl_cons, List.foldl_cons]
      have h1 : (if nn.stren < mn then nn.stren else mn) = min mn nn.stren := by
        by_cases h : nn.stren < mn
        · rw [if_pos h, min_eq_right (le_of_lt h)]
        · rw [if_neg h, min_eq_left (le_of_not_lt h)]
      have h2 : (if mx < nn.stren then nn.stren else mx) = max mx nn.stren := by
        by_cases h : mx < nn.stren
        · rw [if_pos h, max_eq_right (le_of_lt h)]
        · rw [if_neg h, max_eq_left (le_of_not_lt h)]
      rw [h1, h2]
      exact ih (min mn nn.stren) (max mx nn.stren)

/-- The sentinel-initialized scan of `find_min_max_stren` computes the
`999`-clamped minimum and the `0`-clamped maximum of the strengths. -/
lemma find_min_max_eq (notes : List NoteC) :
    find_min_max_stren notes =
      ((notes.map NoteC.stren).foldl min 999,
       (notes.map NoteC.stren).foldl max 0) :=
  fmms_fold notes 999 0

lemma foldl_min_le_init (l : List ℚ) : ∀ (a : ℚ), l.foldl min a ≤ a := by
  induction l with
  | nil => intro a; exact le_refl a
  | cons x rest ih =>
      intro a
      exact (ih (min a x)).trans (min_le_left a x)

lemma foldl_min_le_mem (l : List ℚ) :
    ∀ (a : ℚ), ∀ x ∈ l, l.foldl min a ≤ x := by
  induction l with
  | nil => intro a x hx; cases hx
  | cons y rest ih =>
      intro a x hx
      rcases List.mem_cons.mp hx with rfl | hx
      · exact (foldl_min_le_init rest (min a x)).trans (min_le_right a x)
      · exact ih (min a y) x hx

lemma le_foldl_max_init (l : List ℚ) : ∀ (a : ℚ), a ≤ l.foldl max a := by
  induction l with
  | nil => intro a; exact le_refl a
  | cons x rest ih =>
      intro a
      exact (le_max_left a x).trans (ih (max a x))

lemma le_foldl_max_mem (l : List ℚ) :
    ∀ (a : ℚ), ∀ x ∈ l, x ≤ l.foldl max a := by
  induction l with
  | nil => intro a x hx; cases hx
  | cons y rest ih =>
      intro a x hx
      rcases List.mem_cons.mp hx with rfl | hx
      · exact (le_max_right a x).trans (le_foldl_max_init rest (max a x))
      · exact ih (max a y) x hx

/-- Every strength is bracketed by the scan result. -/
lemma find_min_max_le (notes : List NoteC) :
    ∀ n ∈ notes, (find_min_max_stren notes).1 ≤ n.stren ∧
      n.stren ≤ (find_min_max_stren notes).2 := by
  intro n hn
  rw [find_min_max_eq]
  constructor
  · exact foldl_min_le_mem _ 999 n.stren
      (List.mem_map.mpr ⟨n, hn, rfl⟩)
  · exact le_foldl_max_mem _ 0 n.stren
      (List.mem_map.mpr ⟨n, hn, rfl⟩)

/-- The velocity formula lands in `[60, 126]` whenever the strength
lies between the scan bounds. -/
lemma vMap_bounds {l u s : ℚ} (hls : l ≤ s) (hsu : s ≤ u) :
    60 ≤ vMap l u s ∧ vMap l u s ≤ 126 := by
  have hD : (0 : ℚ) < u - l + 1 / 10000 := by
    have : l ≤ u := hls.trans hsu
    nlinarith
  have hr0 : (0 : ℚ) ≤ (s - l) / (u - l + 1 / 10000) :=
    div_nonneg (by linarith) (le_of_lt hD)
  have hr1 : (s - l) / (u - l + 1 / 10000) < 1 :=
    (div_lt_one hD).mpr (by linarith)
  have hval0 : (60 : ℚ) ≤ 60 + (127 - 60) * ((s - l) / (u - l + 1 / 10000)) := by
    nlinarith
  have hval1 : 60 + (127 - 60) * ((s - l) / (u - l + 1 / 10000)) < 127 := by
    nlinarith
  unfold vMap pyInt
  rw [if_pos (by linarith : (0:ℚ) ≤ _)]
  constructor
  · exact Int.le_floor.mpr (by exact_mod_cast hval0)
  · have : ⌊60 + (127 - 60) * ((s - l) / (u - l + 1 / 10000))⌋ < 127 :=
      Int.floor_lt.mpr (by exact_mod_cast hval1)
    omega

/-- The property every note event of C1 must satisfy. -/
def GoodEvent (e : NoteEvent) : Prop :=
  e.start < e.stop ∧ 21 ≤ e.pitch ∧ e.pitch ≤ 108 ∧
    60 ≤ e.velocity ∧ e.velocity ≤ 127

/-- `to_midi` produces good events from positive-length candidates
with in-range pitches, for a positive time unit. -/
lemma to_midi_good (notes : List NoteC) (t : ℚ) (ht : 0 < t)
    (hn : ∀ n ∈ notes, n.start < n.stop ∧ n.pitch < 88) :
    ∀ tr ∈ to_midi notes t, ∀ e ∈ tr, GoodEvent e := by
  intro tr htr e he
  rcases List.mem_singleton.mp htr with rfl
  rcases List.mem_map.mp he with ⟨n, hnmem, rfl⟩
  obtain ⟨hpos, hpitch⟩ := hn n hnmem
  obtain ⟨hls, hsu⟩ := find_min_max_le notes n hnmem
  obtain ⟨hv0, hv1⟩ := vMap_bounds hls hsu
  refine ⟨?_, ?_, ?_, hv0, ?_⟩
  · show (n.start : ℚ) * t < (n.stop : ℚ) * t
    have : (n.start : ℚ) < (n.stop : ℚ) := by exact_mod_cast hpos
    exact mul_lt_mul_of_pos_right this ht
  · show 21 ≤ n.pitch + 21
    omega
  · show n.pitch + 21 ≤ 108
    omega
  · show vMap (find_min_max_stren notes).1
      (find_min_max_stren notes).2 n.stren ≤ 127
    omega

/-! ## Frame-mode run invariants -/

lemma occStep_inv (min_frm : ℚ) (s : ℕ × ℕ × List (ℕ × ℕ)) (cidx : ℕ)
    (h : ∀ oo ∈ s.2.2, min_frm ≤ (oo.2 : ℚ) - (oo.1 : ℚ)) :
    ∀ oo ∈ (occStep min_frm s cidx).2.2,
      min_frm ≤ (oo.2 : ℚ) - (oo.1 : ℚ) := by
  intro oo hoo
  simp only [occStep] at hoo
  by_cases h1 : 1 < (cidx : ℤ) - (s.2.1 : ℤ)
  · rw [if_pos h1] at hoo
    by_cases h2 : min_frm ≤ (s.2.1 : ℚ) - (s.1 : ℚ)
    · rw [if_pos h2] at hoo
      rcases List.mem_append.mp hoo with hoo | hoo
      · exact h oo hoo
      · rcases List.mem_singleton.mp hoo with rfl
        exact h2
    · rw [if_neg h2] at hoo
      exact h oo hoo
  · rw [if_neg h1] at hoo
    exact h oo hoo

lemma occFinish_inv (min_frm : ℚ) (st : ℕ × ℕ × List (ℕ × ℕ))
    (h : ∀ oo ∈ st.2.2, min_frm ≤ (oo.2 : ℚ) - (oo.1 : ℚ)) :
    ∀ oo ∈ occFinish min_frm st,
      min_frm ≤ (oo.2 : ℚ) - (oo.1 : ℚ) := by
  intro oo hoo
  unfold occFinish at hoo
  by_cases h2 : min_frm ≤ (st.2.1 : ℚ) - (st.1 : ℚ)
  · rw [if_pos h2] at hoo
    rcases List.mem_append.mp hoo with hoo | hoo
    · exact h oo hoo
    · rcases List.mem_singleton.mp hoo with rfl
      exact h2
  · rw [if_neg h2] at hoo
    exact h oo hoo

/-- Every run kept by `find_occur` spans at least `min_frm` frames. -/
lemma find_occur_spec (pitch : List ℚ) (t md : ℚ) :
    ∀ oo ∈ find_occur pitch t md,
      max t md / t ≤ (oo.2 : ℚ) - (oo.1 : ℚ) := by
  intro oo hoo
  unfold find_occur at hoo
  rcases hc : (pitch.enum.filter (fun p => (1 : ℚ) / 2 < p.2)).map Prod.fst
    with _ | ⟨c0, cs⟩
  · simp only [hc] at hoo
    cases hoo
  · simp only [hc] at hoo
    refine occFinish_inv _ _ ?_ oo hoo
    exact List.foldlRecOn (c0 :: cs) _ (c0, c0, [])
      (by intro oo hoo; cases hoo)
      (fun s hs cidx _ => occStep_inv _ s cidx hs)

/-- Frame-mode candidates are positive-length with pitch below the
down-sampled width. -/
lemma frame_notes_wf (mix prob : Mat) (t : ℚ) (ht : 0 < t) :
    ∀ n ∈ frame_notes mix prob t,
      n.start < n.stop ∧ n.pitch < widthM prob := by
  intro n hn
  unfold frame_notes at hn
  rcases List.mem_flatMap.mp hn with ⟨idx, hidx, hmem⟩
  rcases List.mem_map.mp hmem with ⟨oo, hoo, rfl⟩
  have hspec := find_occur_spec (colM prob idx) t (3/100) oo hoo
  have hmlt : (1 : ℚ) ≤ max t (3/100) / t := by
    rw [le_div_iff₀ ht]
    simp
  have hgap : (1 : ℚ) ≤ (oo.2 : ℚ) - (oo.1 : ℚ) := le_trans hmlt hspec
  constructor
  · show (oo.1 : ℤ) < (oo.2 : ℤ)
    have : (oo.1 : ℚ) < (oo.2 : ℚ) := by linarith
    exact_mod_cast this
  · exact List.mem_range.mp hidx

/-! ## Goodness of the inference branches -/

lemma getD_zero_mem (l : List Track) :
    ∀ e ∈ l.getD 0 [], ∃ tr ∈ l, e ∈ tr := by
  intro e he
  match l with
  | [] => cases he
  | tr :: rest => exact ⟨tr, List.mem_cons_self tr rest, he⟩

lemma infer_piece_wf (peaksFn : List ℚ → ℕ → List ℕ)
    (hpk : PeaksSpec peaksFn) (rows : List (List Frame4))
    (h88 : rows.length = 88) :
    ∀ n ∈ infer_piece peaksFn rows 10 12,
      n.start < n.stop ∧ n.pitch < 88 := by
  intro n hn
  unfold infer_piece at hn
  obtain ⟨m, hm, h1, _, h3⟩ := alignLoop_shape 0 _ n hn
  have hm2 := (sortByStart_perm _).mem_iff.mp hm
  have hwf := gatherNotes_wf peaksFn hpk 10 12 (by norm_num) rows 0 m hm2
  have hp := hwf.2
  refine ⟨by have := hwf.1; omega, ?_⟩
  rw [h3]
  omega

lemma noteBranch_good (E : Ext) (hpk : PeaksSpec E.peaksFn)
    (hds : ∀ x, (E.dsFn x).length = 88) (pred : Tensor3)
    (onset_th : ℚ) (lower_onset_th : Option ℚ) (split_bound : ℕ)
    (dura_th : ℚ) (normalize : Bool) (t_unit : ℚ) (ht : 0 < t_unit) :
    ∀ tr ∈ noteBranch E pred onset_th lower_onset_th split_bound dura_th
        normalize t_unit, ∀ e ∈ tr, GoodEvent e := by
  unfold noteBranch
  exact to_midi_good _ _ (half_pos ht)
    (fun n hn => infer_piece_wf E.peaksFn hpk _ (hds _) n hn)

lemma frameBranch_good (E : Ext)
    (hrds : ∀ m, widthM (E.rdsFn m) = 88) (pred : Tensor3)
    (frm_th : ℚ) (normalize : Bool) (t_unit : ℚ) (ht : 0 < t_unit)
    (trs : List Track)
    (h : frameBranch E pred frm_th normalize t_unit = some trs) :
    ∀ tr ∈ trs, ∀ e ∈ tr, GoodEvent e := by
  unfold frameBranch at h
  rcases hmix : frameMix pred with _ | mix
  · simp only [hmix] at h
    cases h
  · simp only [hmix] at h
    injection h with h
    subst h
    refine to_midi_good _ _ ht (fun n hn => ?_)
    have := frame_notes_wf mix _ t_unit ht n hn
    exact ⟨this.1, by have := this.2; rw [hrds] at this; exact this⟩

lemma note_inference_good (E : Ext) (hpk : PeaksSpec E.peaksFn)
    (hds : ∀ x, (E.dsFn x).length = 88)
    (hrds : ∀ m, widthM (E.rdsFn m) = 88)
    (pred : Tensor3) (mode : String) (onset_th : ℚ)
    (lower_onset_th : Option ℚ) (split_bound : ℕ) (dura_th frm_th : ℚ)
    (normalize : Bool) (t_unit : ℚ) (ht : 0 < t_unit)
    (trs : List Track)
    (h : note_inference E pred mode onset_th lower_onset_th split_bound
      dura_th frm_th normalize t_unit = some trs) :
    ∀ tr ∈ trs, ∀ e ∈ tr, GoodEvent e := by
  unfold note_inference at h
  by_cases h1 : strStarts mode sNote
  · rw [if_pos h1] at h
    injection h with h
    subst h
    exact noteBranch_good E hpk hds pred onset_th lower_onset_th
      split_bound dura_th normalize t_unit ht
  · rw [if_neg h1] at h
    by_cases h2 : strStarts mode sFrame ∨ mode = sTrueFrame
    · rw [if_pos h2] at h
      exact frameBranch_good E hrds pred frm_th normalize t_unit ht trs h
    · rw [if_neg h2] at h
      cases h

lemma instTrack_good (E : Ext) (hpk : PeaksSpec E.peaksFn)
    (hds : ∀ x, (E.dsFn x).length = 88)
    (hrds : ∀ m, widthM (E.rdsFn m) = 88)
    (pred : Tensor3) (container : List Tensor3) (ch : ℕ) (mode : String)
    (onset_th dura_th frm_th : ℚ) (normalize : Bool) (t_unit : ℚ)
    (ht : 0 < t_unit) (i : ℕ) (tr : Track)
    (h : instTrack E pred container ch mode onset_th dura_th frm_th
      normalize t_unit i = some tr) :
    ∀ e ∈ tr, GoodEvent e := by
  unfold instTrack at h
  rcases hni : note_inference E
      (stack3 pred.length (pitchCount pred)
        ((List.range ch).map (fun ii => slice2 (container.getD ii []) i)))
      mode onset_th none 36 dura_th frm_th normalize t_unit
    with _ | trs
  · simp only [hni] at h
    cases h
  · simp only [hni] at h
    injection h with h
    subst h
    intro e he
    obtain ⟨tr, htr, hetr⟩ := getD_zero_mem trs e he
    exact note_inference_good E hpk hds hrds _ mode onset_th none 36
      dura_th frm_th normalize t_unit ht trs hni tr htr e hetr

lemma instFold_good (E : Ext) (hpk : PeaksSpec E.peaksFn)
    (hds : ∀ x, (E.dsFn x).length = 88)
    (hrds : ∀ m, widthM (E.rdsFn m) = 88)
    (pred : Tensor3) (container : List Tensor3) (ch iters : ℕ)
    (mode : String) (onset_th dura_th frm_th inst_th : ℚ)
    (normalize : Bool) (t_unit : ℚ) (ht : 0 < t_unit)
    (mapping : List ℕ) :
    ∀ (l : List ℕ) (acc : Option (List (ℕ × Track))),
      (∀ ts, acc = some ts → ∀ pt ∈ ts, ∀ e ∈ pt.2, GoodEvent e) →
      ∀ trs,
        l.foldl (instStep E pred container ch iters mode onset_th dura_th
          frm_th inst_th normalize t_unit mapping) acc = some trs →
        ∀ pt ∈ trs, ∀ e ∈ pt.2, GoodEvent e := by
  intro l
  induction l with
  | nil =>
      intro acc hacc trs h
      exact hacc trs h
  | cons i rest ih =>
      intro acc hacc trs h
      rw [List.foldl_cons] at h
      refine ih _ ?_ trs h
      intro ts hts
      rcases acc with _ | ts0
      · simp only [instStep] at hts
        cases hts
      · simp only [instStep] at hts
        by_cases hskip : 1 < iters ∧ avgStd E.stdM container ch i < inst_th
        · rw [if_pos hskip] at hts
          injection hts with hts
          subst hts
          exact hacc _ rfl
        · rw [if_neg hskip] at hts
          rcases hit : instTrack E pred container ch mode onset_th dura_th
              frm_th normalize t_unit i with _ | tr
          · simp only [hit] at hts
            cases hts
          · simp only [hit] at hts
            injection hts with hts
            subst hts
            intro pt hpt e he
            rcases List.mem_append.mp hpt with hpt | hpt
            · exact hacc ts0 rfl pt hpt e he
            · rcases List.mem_singleton.mp hpt with rfl
              exact instTrack_good E hpk hds hrds pred container ch mode
                onset_th dura_th frm_th normalize t_unit ht i tr hit e he

lemma multi_inst_good (E : Ext) (hpk : PeaksSpec E.peaksFn)
    (hds : ∀ x, (E.dsFn x).length = 88)
    (hrds : ∀ m, widthM (E.rdsFn m) = 88)
    (pred : Tensor3) (mode : String)
    (onset_th dura_th frm_th inst_th : ℚ) (normalize : Bool)
    (t_unit : ℚ) (ht : 0 < t_unit) (mapping : List ℕ)
    (trs : List (ℕ × Track))
    (h : multi_inst_note_inference E pred mode onset_th dura_th frm_th
      inst_th normalize t_unit mapping = some trs) :
    ∀ pt ∈ trs, ∀ e ∈ pt.2, GoodEvent e := by
  unfold multi_inst_note_inference at h
  rcases hcm : chModeOf mode with _ | mc
  · simp only [hcm] at h
    cases h
  · simp only [hcm] at h
    by_cases hassert : ((chCount pred : ℤ) - 1) % (mc.2 : ℤ) ≠ 0
    · rw [if_pos hassert] at h
      cases h
    · rw [if_neg hassert] at h
      exact instFold_good E hpk hds hrds pred _ mc.2 _ mc.1 onset_th
        dura_th frm_th inst_th normalize t_unit ht mapping _ (some [])
        (by intro ts hts; injection hts with hts; subst hts; intro pt hpt; cases hpt)
        trs h

/-- C1: for every prediction tensor and every supported mode, every
note event produced by the pipeline (`note_inference` or
`multi_inst_note_inference`) has a strictly earlier start than end, a
pitch in `[21, 108]` and a velocity in `[60, 127]`, given the
documented contracts of the external peak finder and the pitch
down-samplers and a positive time unit. -/
theorem c1_note_event_ranges (E : Ext) (hpk : PeaksSpec E.peaksFn)
    (hds : ∀ x, (E.dsFn x).length = 88)
    (hrds : ∀ m, widthM (E.rdsFn m) = 88)
    (t_unit : ℚ) (ht : 0 < t_unit) :
    (∀ pred mode onset_th lower_onset_th split_bound dura_th frm_th
        normalize trs,
      note_inference E pred mode onset_th lower_onset_th split_bound
        dura_th frm_th normalize t_unit = some trs →
      ∀ tr ∈ trs, ∀ e ∈ tr, GoodEvent e) ∧
    (∀ pred mode onset_th dura_th frm_th inst_th normalize mapping trs,
      multi_inst_note_inference E pred mode onset_th dura_th frm_th
        inst_th normalize t_unit mapping = some trs →
      ∀ pt ∈ trs, ∀ e ∈ pt.2, GoodEvent e) :=
  ⟨fun pred mode onset_th lower_onset_th split_bound dura_th frm_th
      normalize trs h =>
    note_inference_good E hpk hds hrds pred mode onset_th lower_onset_th
      split_bound dura_th frm_th normalize t_unit ht trs h,
   fun pred mode onset_th dura_th frm_th inst_th normalize mapping trs h =>
    multi_inst_good E hpk hds hrds pred mode onset_th dura_th frm_th
      inst_th normalize t_unit ht mapping trs h⟩

/-! ## Concrete instantiation used by witnesses -/

lemma gatherNotes_nil_rows (pf : List ℚ → ℕ → List ℕ) (s oi : ℕ) :
    ∀ (k i : ℕ), gatherNotes pf s oi i (List.replicate k []) = []
  | 0, _ => rfl
  | k + 1, i => by
      show (if rowSum [] ≤ 0 then ([] : List NoteC) else _) ++
        gatherNotes pf s oi (i + 1) (List.replicate k []) = []
      rw [if_pos (show rowSum [] ≤ 0 from le_refl 0),
        gatherNotes_nil_rows pf s oi k (i + 1)]
      rfl

/-- Concrete pitch-major piece: one active row (40 frames, duration
channel high on the first 15 frames, onset channel constant 3) and 87
silent rows. -/
def c1rows : List (List Frame4) :=
  ((List.range 40).map (fun i => ⟨0, if i < 15 then 1 else 0, 3, 0⟩)) ::
    List.replicate 87 []

/-- Concrete externals: the peak finder reports a single peak at frame
10 whenever that is admissible, the down-sampler yields `c1rows`, the
pitch roll-down-sampler yields one 88-wide row. -/
def c1E : Ext :=
  ⟨fun _ _ => [], fun _ => 0, fun _ => 0,
   fun w d => if d ≤ 10 ∧ 10 < w.length then [10] else [],
   fun _ => c1rows, fun _ => [List.replicate 88 0]⟩

lemma c1E_peaks_spec : PeaksSpec c1E.peaksFn := by
  intro w d
  show (if d ≤ 10 ∧ 10 < w.length then [10] else []).Chain' _ ∧
    ∀ p ∈ (if d ≤ 10 ∧ 10 < w.length then [10] else []), p < w.length
  by_cases h : d ≤ 10 ∧ 10 < w.length
  · rw [if_pos h]
    exact ⟨List.chain'_singleton 10, fun p hp => by
      rcases List.mem_singleton.mp hp with rfl; exact h.2⟩
  · rw [if_neg h]
    exact ⟨List.chain'_nil, fun p hp => absurd hp (List.not_mem_nil p)⟩

lemma c1piece : infer_piece c1E.peaksFn c1rows 10 12 = [⟨5, 15, 3, 0⟩] := by
  norm_num [infer_piece, c1E, c1rows, gatherNotes, gatherNotes_nil_rows,
    rowSum, wOn, wDura, infer_pitch_from_peaks, provisional, adjustOf,
    refineAll, refineStep, scanUpper, findZero, findZeroFrom, windowSum,
    delLoop, sortByStart, insertByStart, alignLoop, List.range_succ]

lemma c1run : note_inference c1E [] sNote (15/2) none 36 2 1 true (1/50) =
    some [[⟨60, 21, 1/20, 3/20⟩]] := by
  have h1 : strStarts sNote sNote = true := by decide
  unfold note_inference
  rw [if_pos h1]
  congr 1
  show to_midi (infer_piece c1E.peaksFn c1rows 10 12) (1/50/2) = _
  rw [c1piece]
  norm_num [to_midi, find_min_max_stren, mkEvent, vMap, pyInt]

/-- Witness for C1: at the concrete externals `c1E` and an empty raw
tensor, the note pipeline emits exactly one event, and the theorem
yields its range properties. -/
theorem c1_note_event_ranges_witness :
    GoodEvent ⟨60, 21, 1/20, 3/20⟩ :=
  (c1_note_event_ranges c1E c1E_peaks_spec (fun _ => rfl) (fun _ => rfl)
      (1/50) (by norm_num)).1
    [] sNote (15/2) none 36 2 1 true _ c1run _
    (List.mem_singleton.mpr rfl) _ (List.mem_singleton.mpr rfl)

/-! ## C10: nonnegative aligned starts -/

/-- C10: every note returned by `infer_piece` has a nonnegative start
frame: the onset-alignment pass starts its running last-accepted start
at 0, and (the input being sorted by start) snaps any note whose start
frame is below 1 — including the negative provisional starts
`infer_pitch` can produce via the `adjust` shift — to frame 0,
shifting its end by the same amount. -/
theorem c10_nonneg_start (peaksFn : List ℚ → ℕ → List ℕ)
    (rows : List (List Frame4)) (shortest oi : ℕ) :
    (∀ m ∈ infer_piece peaksFn rows shortest oi, 0 ≤ m.start) ∧
    (∀ (k : ℕ)
      (hk : k < (sortByStart
        (gatherNotes peaksFn shortest oi 0 rows)).length),
      ((sortByStart (gatherNotes peaksFn shortest oi 0 rows)).get
        ⟨k, hk⟩).start < 1 →
      (infer_piece peaksFn rows shortest oi).getD k default =
        ⟨0,
          ((sortByStart (gatherNotes peaksFn shortest oi 0 rows)).get
            ⟨k, hk⟩).stop -
          ((sortByStart (gatherNotes peaksFn shortest oi 0 rows)).get
            ⟨k, hk⟩).start,
          ((sortByStart (gatherNotes peaksFn shortest oi 0 rows)).get
            ⟨k, hk⟩).stren,
          ((sortByStart (gatherNotes peaksFn shortest oi 0 rows)).get
            ⟨k, hk⟩).pitch⟩) := by
  constructor
  · intro m hm
    exact alignLoop_start_nonneg 0 le_rfl _ m hm
  · intro k hk hlt
    exact alignLoop_snap _ (sortByStart_sorted _) k hk hlt

/-- Concrete single-row piece for the C10 witness: 40 frames, duration
and onset channels constant. -/
def c10rows : List (List Frame4) :=
  [(List.range 40).map (fun _ => ⟨0, 1, 2, 0⟩)]

/-- Peak stub producing peaks 1 and 20, so that the provisional start
of the first note is the negative frame `1 - adjust = -1`. -/
def c10pf : List ℚ → ℕ → List ℕ :=
  fun w d => if d = 5 ∧ 20 < w.length then [1, 20] else []

lemma c10sorted :
    sortByStart (gatherNotes c10pf 5 6 0 c10rows) =
      [⟨-1, 18, 2, 0⟩, ⟨18, 40, 2, 0⟩] := by
  norm_num [c10pf, c10rows, gatherNotes, rowSum, wOn, wDura,
    infer_pitch_from_peaks, provisional, adjustOf, refineAll, refineStep,
    scanUpper, findZero, findZeroFrom, windowSum, delLoop, sortByStart,
    insertByStart, List.range_succ]

/-- Witness for C10: the note with provisional start `-1` is snapped
to frame 0 with its end shifted to 19. -/
theorem c10_nonneg_start_witness :
    (infer_piece c10pf c10rows 5 6).getD 0 default = ⟨0, 19, 2, 0⟩ := by
  have hk : 0 < (sortByStart (gatherNotes c10pf 5 6 0 c10rows)).length := by
    rw [c10sorted]; norm_num
  have hlt : ((sortByStart (gatherNotes c10pf 5 6 0 c10rows)).get
      ⟨0, hk⟩).start < 1 := by
    simp [c10sorted]
  have h := (c10_nonneg_start c10pf c10rows 5 6).2 0 hk hlt
  rw [h]
  simp [c10sorted]

/-! ## C3: the presence gate -/

lemma instStep_none (E : Ext) (pred : Tensor3) (container : List Tensor3)
    (ch iters : ℕ) (mode : String)
    (onset_th dura_th frm_th inst_th : ℚ) (normalize : Bool)
    (t_unit : ℚ) (mapping : List ℕ) (i : ℕ) :
    instStep E pred container ch iters mode onset_th dura_th frm_th
      inst_th normalize t_unit mapping none i = none := rfl

lemma instFold_none (E : Ext) (pred : Tensor3) (container : List Tensor3)
    (ch iters : ℕ) (mode : String)
    (onset_th dura_th frm_th inst_th : ℚ) (normalize : Bool)
    (t_unit : ℚ) (mapping : List ℕ) :
    ∀ (l : List ℕ),
      l.foldl (instStep E pred container ch iters mode onset_th dura_th
        frm_th inst_th normalize t_unit mapping) none = none
  | [] => rfl
  | i :: rest => by
      rw [List.foldl_cons, instStep_none]
      exact instFold_none E pred container ch iters mode onset_th dura_th
        frm_th inst_th normalize t_unit mapping rest

/-- The instrument loop appends exactly the tracks of the non-gated
instruments, in index order. -/
lemma instFold_eq (E : Ext) (pred : Tensor3) (container : List Tensor3)
    (ch iters : ℕ) (mode : String)
    (onset_th dura_th frm_th inst_th : ℚ) (normalize : Bool)
    (t_unit : ℚ) (mapping : List ℕ) :
    ∀ (l : List ℕ) (ts0 trs : List (ℕ × Track)),
      l.foldl (instStep E pred container ch iters mode onset_th dura_th
        frm_th inst_th normalize t_unit mapping) (some ts0) = some trs →
      trs = ts0 ++
        (l.filter (fun i =>
          decide (¬(1 < iters ∧
            avgStd E.stdM container ch i < inst_th)))).filterMap
          (fun i => (instTrack E pred container ch mode onset_th dura_th
            frm_th normalize t_unit i).map
            (fun tr => (mapping.getD i 0, tr)))
  | [], ts0, trs => by
      intro h
      injection h with h
      subst h
      simp
  | i :: rest, ts0, trs => by
      intro h
      rw [List.foldl_cons] at h
      by_cases hskip : 1 < iters ∧ avgStd E.stdM container ch i < inst_th
      · have hstep : instStep E pred container ch iters mode onset_th
            dura_th frm_th inst_th normalize t_unit mapping (some ts0) i =
            some ts0 := by
          simp only [instStep]
          rw [if_pos hskip]
        rw [hstep] at h
        rw [instFold_eq E pred container ch iters mode onset_th dura_th
          frm_th inst_th normalize t_unit mapping rest ts0 trs h,
          List.filter_cons]
        simp [hskip]
      · rcases hit : instTrack E pred container ch mode onset_th dura_th
            frm_th normalize t_unit i with _ | tr
        · have hstep : instStep E pred container ch iters mode onset_th
              dura_th frm_th inst_th normalize t_unit mapping
              (some ts0) i = none := by
            simp only [instStep]
            rw [if_neg hskip]
            simp [hit]
          rw [hstep, instFold_none] at h
          cases h
        · have hstep : instStep E pred container ch iters mode onset_th
              dura_th frm_th inst_th normalize t_unit mapping
              (some ts0) i =
              some (ts0 ++ [(mapping.getD i 0, tr)]) := by
            simp only [instStep]
            rw [if_neg hskip]
            simp [hit]
          rw [hstep] at h
          rw [instFold_eq E pred container ch iters mode onset_th dura_th
            frm_th inst_th normalize t_unit mapping rest _ trs h,
            List.filter_cons]
          simp [hskip, List.filterMap_cons, hit, List.append_assoc]

/-- C3 (amended): under any successful multi-instrument run, the
emitted tracks are exactly those of the instruments that are NOT
skipped by the gate `iters > 1 and std/ch_per_inst < inst_th`, in
index order; in particular an instrument whose averaged channel
standard deviation is exactly `inst_th` is included (the strict `<`
comparison only gates instruments strictly below the threshold), and
an instrument strictly below the threshold never contributes a track
when more than one instrument iteration runs. -/
theorem c3_presence_gate (E : Ext) (pred : Tensor3) (mode : String)
    (onset_th dura_th frm_th inst_th : ℚ) (normalize : Bool)
    (t_unit : ℚ) (mapping : List ℕ) (mc : String × ℕ)
    (hmc : chModeOf mode = some mc) (trs : List (ℕ × Track))
    (h : multi_inst_note_inference E pred mode onset_th dura_th frm_th
      inst_th normalize t_unit mapping = some trs) :
    trs = ((List.range (multiIters pred mc.1 mc.2)).filter (fun i =>
        decide (¬(1 < multiIters pred mc.1 mc.2 ∧
          avgStd E.stdM (multiContainer E pred mc.1 mc.2 normalize)
            mc.2 i < inst_th)))).filterMap
      (fun i => (instTrack E pred
          (multiContainer E pred mc.1 mc.2 normalize) mc.2 mc.1
          onset_th dura_th frm_th normalize t_unit i).map
        (fun tr => (mapping.getD i 0, tr))) := by
  unfold multi_inst_note_inference at h
  simp only [hmc] at h
  by_cases hassert : ((chCount pred : ℤ) - 1) % (mc.2 : ℤ) ≠ 0
  · rw [if_pos hassert] at h
    cases h
  · rw [if_neg hassert] at h
    have := instFold_eq E pred (multiContainer E pred mc.1 mc.2 normalize)
      mc.2 (multiIters pred mc.1 mc.2) mc.1 onset_th dura_th frm_th
      inst_th normalize t_unit mapping _ [] trs h
    simpa using this

/-- Externals for the C3 inputs: every channel matrix reports standard
deviation `19/20`, the down-sampler yields 88 silent rows. -/
def c3E : Ext :=
  ⟨fun _ _ => [], fun _ => 19/20, fun _ => 0, fun _ _ => [],
   fun _ => List.replicate 88 [], fun _ => [List.replicate 88 0]⟩

/-- A 1-frame, 1-pitch, 5-channel stacked tensor: two instruments with
two channels each, in a stream mode. -/
def c3pred : Tensor3 := [[[0, 0, 0, 0, 0]]]

lemma c3run : multi_inst_note_inference c3E c3pred sNoteStream 5 2 1
    (19/20) false (1/50) [1, 2] = some [(1, []), (2, [])] := by
  norm_num [multi_inst_note_inference, chModeOf, sNoteStream, sNote,
    sFrame, sFrameStream, sTrueFrame, sStreamSuffix, strEnds, strStarts,
    charsPre, multiIters, multiContainer, chCount, c3pred, c3E,
    containerOf, instItem, instStep, avgStd, slice2, instTrack,
    note_inference, noteBranch, to_midi, find_min_max_stren,
    infer_piece, gatherNotes_nil_rows, sortByStart, alignLoop,
    List.range_succ, stack3, pitchCount]

/-- Counterexample to C3 as stated: with two instruments whose averaged
channel standard deviation is exactly the threshold `19/20 = inst_th`
and more than one iteration, BOTH instruments contribute a track — the
boundary instrument is included, not excluded. -/
theorem c3_gate_counterexample :
    avgStd c3E.stdM (multiContainer c3E c3pred sNoteStream 2 false)
        2 0 = 19/20 ∧
    1 < multiIters c3pred sNoteStream 2 ∧
    multi_inst_note_inference c3E c3pred sNoteStream 5 2 1 (19/20)
      false (1/50) [1, 2] = some [(1, []), (2, [])] := by
  refine ⟨?_, ?_, c3run⟩
  · norm_num [avgStd, c3E, List.range_succ]
  · norm_num [multiIters, sNoteStream, sTrueFrame, sStreamSuffix,
      strEnds, charsPre, chCount, c3pred]

/-- Witness for C3 (amended) at the concrete boundary input. -/
theorem c3_presence_gate_witness :
    [(1, ([] : Track)), (2, ([] : Track))] =
      ((List.range (multiIters c3pred sNoteStream 2)).filter (fun i =>
        decide (¬(1 < multiIters c3pred sNoteStream 2 ∧
          avgStd c3E.stdM (multiContainer c3E c3pred sNoteStream 2 false)
            2 i < 19/20)))).filterMap
      (fun i => (instTrack c3E c3pred
          (multiContainer c3E c3pred sNoteStream 2 false) 2 sNoteStream
          5 2 1 false (1/50) i).map
        (fun tr => (([1, 2].getD i 0 : ℕ), tr))) :=
  c3_presence_gate c3E c3pred sNoteStream 5 2 1 (19/20) false (1/50)
    [1, 2] (sNoteStream, 2) (by decide) _ c3run

/-! ## C7: deletion loop as a filter pass -/

/-- C7: the index-shifted deletion loop is a filter pass — exactly the
marked indices are removed and survivors keep their relative order
(the marked set is decided before any deletion happens, so the result
does not depend on the order deletions are performed in); the deletion
list the refinement pass produces is strictly increasing, as the
equivalence requires. -/
theorem c7_deletion_is_filter :
    (∀ (notes : List NoteC) (del : List ℕ), del.Pairwise (· < ·) →
      delLoop notes del 0 = keepAux del 0 notes) ∧
    (∀ (w_dura : List ℚ) (peaks : List ℕ) (shortest oi : ℕ)
      (notes0 : List NoteC),
      (refineAll w_dura peaks shortest oi notes0).2.Pairwise (· < ·)) := by
  constructor
  · intro notes del h
    exact delLoop_eq_keepAux notes del 0 h (fun d _ => Nat.zero_le d)
  · intro w_dura peaks shortest oi notes0
    have hd :=
      (refineFold_spec w_dura peaks shortest oi notes0 peaks.length).2.2.2
    rw [refineAll_eq_foldN, hd]
    exact (List.pairwise_lt_range _).filter _

/-- Witness for C7: deleting indices 1 and 3 out of four candidates by
the index-shifted loop equals the filter pass and keeps candidates 0
and 2 in order. -/
theorem c7_deletion_is_filter_witness :
    delLoop [⟨0, 1, 5, 0⟩, ⟨1, 2, 6, 1⟩, ⟨2, 3, 7, 2⟩, ⟨3, 4, 8, 3⟩]
        [1, 3] 0 =
      keepAux [1, 3] 0
        [⟨0, 1, 5, 0⟩, ⟨1, 2, 6, 1⟩, ⟨2, 3, 7, 2⟩, ⟨3, 4, 8, 3⟩] ∧
    keepAux [1, 3] 0
        [⟨0, 1, 5, 0⟩, ⟨1, 2, 6, 1⟩, ⟨2, 3, 7, 2⟩, ⟨3, 4, 8, 3⟩] =
      [⟨0, 1, 5, 0⟩, ⟨2, 3, 7, 2⟩] :=
  ⟨c7_deletion_is_filter.1 _ [1, 3] (by decide), by norm_num [keepAux]⟩

/-! ## C4: the offset-refinement scan range -/

/-- The scan upper bound as the claim words it: toward the next peak
whenever one exists (only the last peak scans to the end of the
signal). -/
def scanUpperSpec (peaks : List ℕ) (nDura idx : ℕ) : ℕ :=
  if idx < peaks.length - 1 then peaks.getD (idx + 1) 0 else nDura

/-- The refinement step under the claim reading of the scan range. -/
def refineStepSpec (w_dura : List ℚ) (peaks : List ℕ) (shortest oi : ℕ)
    (st : List NoteC × List ℕ) (idx : ℕ) : List NoteC × List ℕ :=
  let p := peaks.getD idx 0
  let upper := scanUpperSpec peaks w_dura.length idx
  match findZero w_dura oi p upper with
  | none => st
  | some i =>
      let nt := st.1.getD idx default
      if (i : ℤ) - nt.start < (shortest : ℤ) then (st.1, st.2 ++ [idx])
      else (st.1.set idx { nt with stop := (i : ℤ) }, st.2)

/-- `infer_pitch` under the claim reading of the scan range. -/
def infer_pitch_spec_scan (peaks : List ℕ) (w_on w_dura : List ℚ)
    (shortest oi : ℕ) : List NoteC :=
  match peaks with
  | [] => []
  | _ :: _ =>
      let notes0 := provisional w_on (adjustOf shortest) peaks
      let rd := (List.range peaks.length).foldl
        (refineStepSpec w_dura peaks shortest oi) (notes0, [])
      delLoop rd.1 rd.2 0

/-- Onset channel for the C4 input: 40 frames of constant value 1. -/
def c4wo : List ℚ := (List.range 40).map (fun _ => 1)

/-- Duration channel for the C4 input: active on the first 34 frames,
silent afterwards. -/
def c4wd : List ℚ := (List.range 40).map (fun i => if i < 34 then 1 else 0)

/-- Counterexample to C4 as stated: with peaks 10, 20, 30, the scan
for the second-to-last peak runs past the next peak (line 29 uses
`idx < len(peaks) - 2`, not `- 1`), so the code sets that note's end
to frame 34 — beyond the next peak 30 — while the claim scan (toward
the next peak) would leave it at 28. -/
theorem c4_scan_counterexample :
    infer_pitch_from_peaks [10, 20, 30] c4wo c4wd 5 6 ≠
      infer_pitch_spec_scan [10, 20, 30] c4wo c4wd 5 6 := by
  have h1 : infer_pitch_from_peaks [10, 20, 30] c4wo c4wd 5 6 =
      [⟨8, 18, 1, 0⟩, ⟨18, 34, 1, 0⟩, ⟨28, 34, 1, 0⟩] := by
    norm_num [infer_pitch_from_peaks, c4wo, c4wd, provisional, adjustOf,
      refineAll, refineStep, scanUpper, findZero, findZeroFrom,
      windowSum, delLoop, List.range_succ]
  have h2 : infer_pitch_spec_scan [10, 20, 30] c4wo c4wd 5 6 =
      [⟨8, 18, 1, 0⟩, ⟨18, 28, 1, 0⟩, ⟨28, 34, 1, 0⟩] := by
    norm_num [infer_pitch_spec_scan, c4wo, c4wd, provisional, adjustOf,
      refineStepSpec, scanUpperSpec, findZero, findZeroFrom, windowSum,
      delLoop, List.range_succ]
  rw [h1, h2]
  norm_num

/-- C4 (amended): the refinement loop scans `[peaks[idx], upper)` with
`upper` the next peak only for indices before the last two, and the
end of the duration signal for the last two peaks; when the first
zero-summing window is found closer than `shortest` frames to the
note's start the note is marked for deletion (its end unchanged),
otherwise its end is set to that frame. -/
theorem c4_offset_refinement (w_dura : List ℚ) (peaks : List ℕ)
    (shortest oi : ℕ) (notes0 : List NoteC)
    (h : notes0.length = peaks.length) :
    refineAll w_dura peaks shortest oi notes0 =
      ((List.range peaks.length).map
          (fun j => refinedAt w_dura peaks shortest oi j
            (notes0.getD j default)),
        (List.range peaks.length).filter
          (fun j => deletedAt w_dura peaks shortest oi notes0 j)) :=
  refineAll_eq w_dura peaks shortest oi notes0 h

/-- Witness for C4 (amended) at the counterexample input. -/
theorem c4_offset_refinement_witness :
    refineAll c4wd [10, 20, 30] 5 6
        (provisional c4wo (adjustOf 5) [10, 20, 30]) =
      ((List.range 3).map
          (fun j => refinedAt c4wd [10, 20, 30] 5 6 j
            ((provisional c4wo (adjustOf 5) [10, 20, 30]).getD j default)),
        (List.range 3).filter
          (fun j => deletedAt c4wd [10, 20, 30] 5 6
            (provisional c4wo (adjustOf 5) [10, 20, 30]) j)) :=
  c4_offset_refinement _ [10, 20, 30] 5 6 _
    (provisional_length c4wo (adjustOf 5) [10, 20, 30])

/-! ## C2: the velocity map -/

lemma foldl_min_ge (s : ℚ) :
    ∀ (sl : List ℚ) (a : ℚ), s ≤ a → (∀ x ∈ sl, s ≤ x) →
      s ≤ sl.foldl min a
  | [], a, ha, _ => ha
  | x :: rest, a, ha, hall => by
      rw [List.foldl_cons]
      exact foldl_min_ge s rest (min a x)
        (le_min ha (hall x (List.mem_cons_self x rest)))
        (fun y hy => hall y (List.mem_cons_of_mem x hy))

/-- C2 (amended): `find_min_max_stren` is a sentinel-initialized scan,
computing `min(999, min strengths)` and `max(0, max strengths)` rather
than the true minimum and maximum; with those bounds every mapped
velocity lies in `[60, 127]`, and when all strengths are equal to a
common value `s` with `s ≤ 999` every mapped velocity equals 60
exactly. -/
theorem c2_velocity_map :
    (∀ notes : List NoteC, find_min_max_stren notes =
      ((notes.map NoteC.stren).foldl min 999,
       (notes.map NoteC.stren).foldl max 0)) ∧
    (∀ (notes : List NoteC) (t s : ℚ), (∀ n ∈ notes, n.stren = s) →
      s ≤ 999 → ∀ tr ∈ to_midi notes t, ∀ e ∈ tr, e.velocity = 60) ∧
    (∀ (notes : List NoteC) (t : ℚ), ∀ tr ∈ to_midi notes t, ∀ e ∈ tr,
      60 ≤ e.velocity ∧ e.velocity ≤ 127) := by
  refine ⟨find_min_max_eq, ?_, ?_⟩
  · intro notes t s hall hs tr htr e he
    rcases List.mem_singleton.mp htr with rfl
    rcases List.mem_map.mp he with ⟨n, hn, rfl⟩
    have hls : (find_min_max_stren notes).1 ≤ n.stren :=
      (find_min_max_le notes n hn).1
    have hl2 : s ≤ (find_min_max_stren notes).1 := by
      rw [find_min_max_eq]
      exact foldl_min_ge s _ 999 hs
        (fun x hx => by
          rcases List.mem_map.mp hx with ⟨m, hm, rfl⟩
          rw [hall m hm])
    have hns : n.stren = s := hall n hn
    have hleq : (find_min_max_stren notes).1 = n.stren :=
      le_antisymm hls (hns ▸ hl2)
    show vMap (find_min_max_stren notes).1 (find_min_max_stren notes).2
      n.stren = 60
    rw [hleq]
    unfold vMap
    rw [sub_self, zero_div, mul_zero, add_zero]
    unfold pyInt
    rw [if_pos (by norm_num : (0 : ℚ) ≤ 60)]
    norm_num
  · intro notes t tr htr e he
    rcases List.mem_singleton.mp htr with rfl
    rcases List.mem_map.mp he with ⟨n, hn, rfl⟩
    obtain ⟨hls, hsu⟩ := find_min_max_le notes n hn
    obtain ⟨hv0, hv1⟩ := vMap_bounds hls hsu
    constructor
    · exact hv0
    · show vMap (find_min_max_stren notes).1
        (find_min_max_stren notes).2 n.stren ≤ 127
      omega

/-- Counterexample to C2 as stated: for a single note (all candidate
strengths equal) of strength 1000, the scan returns `(999, 1000)` —
not the min and max of the strength set — and the mapped velocity is
126, not 60. -/
theorem c2_velocity_counterexample :
    find_min_max_stren [⟨0, 10, 1000, 0⟩] = (999, 1000) ∧
    to_midi [⟨0, 10, 1000, 0⟩] (1/50) = [[⟨126, 21, 0, 1/5⟩]] ∧
    (126 : ℤ) ≠ 60 := by
  refine ⟨by norm_num [find_min_max_stren], ?_, by norm_num⟩
  norm_num [to_midi, find_min_max_stren, mkEvent, vMap, pyInt]

/-- Witness for C2 (amended): two notes with equal strength 7 both get
velocity 60. -/
theorem c2_velocity_map_witness :
    (⟨60, 24, 1/10, 9/50⟩ : NoteEvent).velocity = 60 := by
  have heq : to_midi [⟨0, 5, 7, 0⟩, ⟨5, 9, 7, 3⟩] (1/50) =
      [[⟨60, 21, 0, 1/10⟩, ⟨60, 24, 1/10, 9/50⟩]] := by
    norm_num [to_midi, find_min_max_stren, mkEvent, vMap, pyInt]
  refine c2_velocity_map.2.1 [⟨0, 5, 7, 0⟩, ⟨5, 9, 7, 3⟩] (1/50) 7 ?_
    (by norm_num) [⟨60, 21, 0, 1/10⟩, ⟨60, 24, 1/10, 9/50⟩]
    (by rw [heq]; exact List.mem_singleton.mpr rfl)
    ⟨60, 24, 1/10, 9/50⟩
    (List.mem_cons_of_mem _ (List.mem_singleton.mpr rfl))
  intro n hn
  rcases List.mem_cons.mp hn with rfl | hn
  · rfl
  · rcases List.mem_singleton.mp hn with rfl
    rfl

/-! ## C5: the onset-duration clip -/

/-- C5 (amended): at the clipping step of `norm_onset_dura` (line 170,
`np.where(onset < dura, 0, onset)`), a position is zeroed exactly when
its onset value is strictly below its duration value; a position where
onset equals or exceeds duration keeps its onset value. -/
theorem c5_onset_clip (onset dura : Mat) (i : ℕ)
    (hi1 : i < onset.length) (hi2 : i < dura.length) (j : ℕ)
    (hj1 : j < (onset.get ⟨i, hi1⟩).length)
    (hj2 : j < (dura.get ⟨i, hi2⟩).length) :
    getM (clipOnset onset dura) i j =
      if (onset.get ⟨i, hi1⟩).get ⟨j, hj1⟩ <
          (dura.get ⟨i, hi2⟩).get ⟨j, hj2⟩ then 0
      else (onset.get ⟨i, hi1⟩).get ⟨j, hj1⟩ := by
  have hlen : i < (clipOnset onset dura).length := by
    unfold clipOnset zipWithM
    rw [List.length_zipWith]
    exact lt_min hi1 hi2
  unfold getM
  rw [List.getD_eq_getElem _ _ hlen]
  unfold clipOnset zipWithM
  rw [List.getElem_zipWith]
  have hjlen : j < (List.zipWith
      (fun o d => if o < d then (0 : ℚ) else o) onset[i] dura[i]).length := by
    rw [List.length_zipWith]
    exact lt_min hj1 hj2
  rw [List.getD_eq_getElem _ _ hjlen, List.getElem_zipWith]
  rfl

/-- Counterexample to C5 as stated: a position where onset equals
duration (`1 ≤ 1`) is NOT set to zero by the clip — the strict `<`
keeps it. -/
theorem c5_clip_counterexample :
    (1 : ℚ) ≤ 1 ∧ clipOnset [[1]] [[1]] = [[1]] ∧
      ([[(1 : ℚ)]] : Mat) ≠ [[0]] := by
  refine ⟨le_refl 1, ?_, by norm_num⟩
  norm_num [clipOnset, zipWithM]

/-- Witness for C5 (amended): a position with onset 2 above duration 1
keeps its value. -/
theorem c5_onset_clip_witness :
    getM (clipOnset [[2, 1]] [[1, 1]]) 0 0 =
      if (([[2, 1]] : Mat).get ⟨0, by norm_num⟩).get ⟨0, by norm_num⟩ <
          (([[1, 1]] : Mat).get ⟨0, by norm_num⟩).get ⟨0, by norm_num⟩
      then 0
      else (([[2, 1]] : Mat).get ⟨0, by norm_num⟩).get ⟨0, by norm_num⟩ :=
  c5_onset_clip [[2, 1]] [[1, 1]] 0 (by norm_num) (by norm_num) 0
    (by norm_num) (by norm_num)

/-! ## C6: the frame-mode strength lookup -/

/-- C6: evaluation of the frame branch at a failing input.  The pitch-0
column of `prob` is active on frames 2-4, so the retained note has
onset frame 2; the spec says its strength is the pre-binarized
magnitude at the onset frame, `mix[2][0] = 9`, but the code computes
the row index as `int(onset * t_unit) = int(2 * 0.02) = 0` and records
`mix[0][0] = 7` instead. -/
theorem c6_stren_lookup_bug :
    frame_notes [[7], [0], [9], [0], [0], [0]]
        [[0], [0], [1], [1], [1], [0]] (1/50) = [⟨2, 4, 7, 0⟩] ∧
    getM [[7], [0], [9], [0], [0], [0]] 2 0 = 9 ∧ (7 : ℚ) ≠ 9 := by
  refine ⟨?_, by norm_num [getM], by norm_num⟩
  norm_num [frame_notes, widthM, colM, getM, find_occur, occStep,
    occFinish, pyInt, List.enum, List.range_succ]

/-! ## C9: interpolation round-trip -/

/-- Down-sampling by the inverse factor: take every second sample. -/
def downsample2 : List (List ℚ) → List (List ℚ)
  | [] => []
  | [a] => [a]
  | a :: _ :: rest => a :: downsample2 rest

lemma downsample2_getElem? :
    ∀ (l : List (List ℚ)) (k : ℕ), (downsample2 l)[k]? = l[2 * k]?
  | [], k => by simp [downsample2]
  | [a], 0 => rfl
  | [a], k + 1 => by
      have l1 : (downsample2 [a])[k + 1]? = none :=
        List.getElem?_eq_none (by simp [downsample2])
      have l2 : ([a] : List (List ℚ))[2 * (k + 1)]? = none :=
        List.getElem?_eq_none (by simp; omega)
      rw [l1, l2]
  | a :: b :: rest, 0 => by simp [downsample2]
  | a :: b :: rest, k + 1 => by
      have hds : downsample2 (a :: b :: rest) = a :: downsample2 rest := by
        simp [downsample2]
      rw [hds, List.getElem?_cons_succ, downsample2_getElem? rest k,
        show 2 * (k + 1) = 2 * k + 1 + 1 from by omega,
        List.getElem?_cons_succ, List.getElem?_cons_succ]

/-- C9: interpolating at the default 2x grid (source time unit 0.02,
target 0.01) and then down-sampling by the inverse factor (taking
every second output sample) reproduces the input exactly, for any
spline fit that interpolates the grid points (scipy CubicSpline's
contract). -/
theorem c9_interpolation_roundtrip (splineFit : Mat → ℚ → List ℚ)
    (data : Mat)
    (hsp : ∀ (k : ℕ) (hk : k < data.length),
      splineFit data (k : ℚ) = data.get ⟨k, hk⟩) :
    downsample2 (interpolation splineFit data (1/50) (1/100)) = data := by
  have hstep : ((1 : ℚ)/100) / ((1 : ℚ)/50) = 1/2 := by norm_num
  have hcount : (⌈(data.length : ℚ) / (((1 : ℚ)/100) / ((1 : ℚ)/50))⌉).toNat =
      2 * data.length := by
    rw [hstep]
    have hq : (data.length : ℚ) / (1/2) = ((2 * data.length : ℕ) : ℚ) := by
      push_cast
      ring
    rw [hq, Int.ceil_natCast]
    exact Int.toNat_natCast _
  have hlen : (interpolation splineFit data (1/50) (1/100)).length =
      2 * data.length := by
    simp only [interpolation, arange, List.length_map, List.length_range]
    exact hcount
  have hval : ∀ (j : ℕ) (hj : j < data.length)
      (h2j : 2 * j < (interpolation splineFit data (1/50) (1/100)).length),
      (interpolation splineFit data (1/50) (1/100)).get ⟨2 * j, h2j⟩ =
        data.get ⟨j, hj⟩ := by
    intro j hj h2j
    simp only [List.get_eq_getElem]
    simp only [interpolation, arange, List.getElem_map, List.getElem_range]
    have hcast : ((2 * j : ℕ) : ℚ) * (((1 : ℚ)/100) / ((1 : ℚ)/50)) = ((j : ℕ) : ℚ) := by
      rw [hstep]
      push_cast
      ring
    rw [hcast, hsp j hj]
    simp [List.get_eq_getElem]
  apply List.ext_getElem?
  intro n
  rw [downsample2_getElem?]
  by_cases hn : n < data.length
  · have h2n : 2 * n < (interpolation splineFit data (1/50) (1/100)).length := by
      rw [hlen]
      omega
    rw [List.getElem?_eq_getElem h2n, List.getElem?_eq_getElem hn]
    exact congrArg some (hval n hn h2n)
  · have h1 : (interpolation splineFit data (1/50) (1/100)).length ≤ 2 * n := by
      rw [hlen]
      omega
    have h2 : data.length ≤ n := by omega
    rw [List.getElem?_eq_none h1, List.getElem?_eq_none h2]

/-- Witness for C9: a two-sample input with an interpolating spline fit
round-trips exactly. -/
theorem c9_interpolation_roundtrip_witness :
    downsample2 (interpolation
      (fun _ q => if q = 0 then [(1 : ℚ)] else if q = 1 then [2] else [99])
      [[1], [2]] (1/50) (1/100)) = [[1], [2]] :=
  c9_interpolation_roundtrip _ _ (by
    intro k hk
    have hk2 : k < 2 := by simpa using hk
    interval_cases k <;> norm_num [List.get_eq_getElem])

/-! ## C8: all-zero input gives an empty (but well-formed) result -/

/-- All entries of a matrix are zero. -/
def ZeroM (m : Mat) : Prop := ∀ r ∈ m, ∀ v ∈ r, v = 0

/-- All entries of a 3-D tensor are zero. -/
def Zero3 (t : Tensor3) : Prop := ∀ p ∈ t, ∀ c ∈ p, ∀ v ∈ c, v = 0

lemma zipWith_zero_row (f : ℚ → ℚ → ℚ) (hf : f 0 0 = 0) :
    ∀ (r s : List ℚ), (∀ v ∈ r, v = 0) → (∀ v ∈ s, v = 0) →
      ∀ v ∈ List.zipWith f r s, v = 0
  | [], _, _, _ => by intro v hv; cases hv
  | _ :: _, [], _, _ => by intro v hv; cases hv
  | a :: r, b :: s, hr, hs => by
      intro v hv
      rcases List.mem_cons.mp hv with h | h
      · rw [h, hr a (List.mem_cons_self a r), hs b (List.mem_cons_self b s)]
        exact hf
      · exact zipWith_zero_row f hf r s
          (fun u hu => hr u (List.mem_cons_of_mem _ hu))
          (fun u hu => hs u (List.mem_cons_of_mem _ hu)) v h

lemma zipWithM_zero (f : ℚ → ℚ → ℚ) (hf : f 0 0 = 0) :
    ∀ (a b : Mat), ZeroM a → ZeroM b → ZeroM (zipWithM f a b)
  | [], _, _, _ => by intro r hr; cases hr
  | _ :: _, [], _, _ => by intro r hr; cases hr
  | x :: xs, y :: ys, ha, hb => by
      intro r hr
      rcases List.mem_cons.mp hr with h | h
      · subst h
        exact zipWith_zero_row f hf x y (ha x (List.mem_cons_self x xs))
          (hb y (List.mem_cons_self y ys))
      · exact zipWithM_zero f hf xs ys
          (fun u hu => ha u (List.mem_cons_of_mem _ hu))
          (fun u hu => hb u (List.mem_cons_of_mem _ hu)) r h

lemma getD_zero_row (r : List ℚ) (hr : ∀ v ∈ r, v = 0) (j : ℕ) :
    r.getD j 0 = 0 := by
  cases hv : r[j]? with
  | none => rw [List.getD_eq_getElem?_getD r j, hv]; rfl
  | some v =>
      rw [List.getD_eq_getElem?_getD r j, hv]
      exact hr v (List.getElem?_mem hv)

lemma getM_zero (m : Mat) (hm : ZeroM m) (i j : ℕ) : getM m i j = 0 := by
  unfold getM
  cases hrow : m[i]? with
  | none => rw [List.getD_eq_getElem?_getD m i, hrow]; rfl
  | some row =>
      rw [List.getD_eq_getElem?_getD m i, hrow]
      exact getD_zero_row row (hm row (List.getElem?_mem hrow)) j

lemma chanSlice_zero (t : Tensor3) (ht : Zero3 t) (c : ℕ) :
    ZeroM (chanSlice t c) := by
  intro r hr v hv
  simp only [chanSlice, List.mem_map] at hr
  obtain ⟨p, hp, rfl⟩ := hr
  simp only [List.mem_map] at hv
  obtain ⟨cell, hcell, rfl⟩ := hv
  exact getD_zero_row cell (ht p hp cell hcell) c

lemma interpolation_zero (splineFit : Mat → ℚ → List ℚ) (m : Mat)
    (hm : ∀ q, ∀ v ∈ splineFit m q, v = 0) (o t : ℚ) :
    ZeroM (interpolation splineFit m o t) := by
  intro r hr
  simp only [interpolation, List.mem_map] at hr
  obtain ⟨q, _, rfl⟩ := hr
  exact hm q

lemma meanM_zero (m : Mat) (hm : ZeroM m) : meanM m = 0 := by
  unfold meanM
  have h0 : (m.map List.sum).sum = 0 := by
    apply List.sum_eq_zero
    intro x hx
    simp only [List.mem_map] at hx
    obtain ⟨r, hr, rfl⟩ := hx
    exact List.sum_eq_zero (hm r hr)
  rw [h0]
  simp

lemma normM_zero (stdFn : Mat → ℚ) (m : Mat) (hm : ZeroM m) :
    ZeroM (normM stdFn m) := by
  intro r hr v hv
  simp only [normM, List.mem_map] at hr
  obtain ⟨r0, hr0, rfl⟩ := hr
  simp only [List.mem_map] at hv
  obtain ⟨v0, hv0, rfl⟩ := hv
  rw [hm r0 hr0 v0 hv0, meanM_zero m hm]
  simp

lemma threshBelow_zero (m : Mat) (hm : ZeroM m) (th : ℚ) :
    ZeroM (threshBelow m th) := by
  intro r hr v hv
  simp only [threshBelow, List.mem_map] at hr
  obtain ⟨r0, hr0, rfl⟩ := hr
  simp only [List.mem_map] at hv
  obtain ⟨v0, hv0, rfl⟩ := hv
  rw [hm r0 hr0 v0 hv0]
  split <;> rfl

lemma pitchSlice_zero (t : Tensor3) (ht : Zero3 t) (lo hi : ℕ) :
    Zero3 (pitchSlice t lo hi) := by
  intro p hp c hc v hv
  simp only [pitchSlice, List.mem_map] at hp
  obtain ⟨row, hrow, rfl⟩ := hp
  exact ht row hrow c
    (List.mem_of_mem_drop (List.mem_of_mem_take hc)) v hv

lemma hstack3_zero :
    ∀ (a b : Tensor3), Zero3 a → Zero3 b → Zero3 (hstack3 a b)
  | [], _, _, _ => by intro p hp; cases hp
  | _ :: _, [], _, _ => by intro p hp; cases hp
  | x :: xs, y :: ys, ha, hb => by
      intro p hp c hc v hv
      rcases List.mem_cons.mp hp with h | h
      · subst h
        rcases List.mem_append.mp hc with h2 | h2
        · exact ha x (List.mem_cons_self x xs) c h2 v hv
        · exact hb y (List.mem_cons_self y ys) c h2 v hv
      · exact hstack3_zero xs ys
          (fun u hu => ha u (List.mem_cons_of_mem _ hu))
          (fun u hu => hb u (List.mem_cons_of_mem _ hu)) p h c hc v hv

lemma shiftPos_zero (t : Tensor3) (ht : Zero3 t) : Zero3 (shiftPos t) := by
  intro p hp c hc v hv
  simp only [shiftPos, List.mem_map] at hp
  obtain ⟨p0, hp0, rfl⟩ := hp
  simp only [List.mem_map] at hc
  obtain ⟨c0, hc0, rfl⟩ := hc
  simp only [List.mem_map] at hv
  obtain ⟨v0, hv0, rfl⟩ := hv
  rw [ht p0 hp0 c0 hc0 v0 hv0]
  norm_num

lemma tensorBuild_zero (L P C : ℕ) (O2 D2 : Mat)
    (hO : ZeroM O2) (hD : ZeroM D2) :
    Zero3 ((List.range L).map (fun t => (List.range P).map (fun p =>
      (List.range C).map (fun c =>
        if c = 2 then getM O2 t p
        else if c = 1 then getM D2 t p else 0)))) := by
  intro p hp c hc v hv
  simp only [List.mem_map] at hp
  obtain ⟨t0, _, rfl⟩ := hp
  simp only [List.mem_map] at hc
  obtain ⟨p0, _, rfl⟩ := hc
  simp only [List.mem_map] at hv
  obtain ⟨c0, _, rfl⟩ := hv
  by_cases h2 : c0 = 2
  · rw [if_pos h2]
    exact getM_zero _ hO t0 p0
  · rw [if_neg h2]
    by_cases h1 : c0 = 1
    · rw [if_pos h1]
      exact getM_zero _ hD t0 p0
    · rw [if_neg h1]

lemma norm_onset_dura_zero (splineFit : Mat → ℚ → List ℚ)
    (stdFn : Mat → ℚ) (pred : Tensor3) (onset_th dura_th : ℚ)
    (interpolate normalize : Bool) (hz : Zero3 pred)
    (hsp : ∀ m, ZeroM m → ∀ q, ∀ v ∈ splineFit m q, v = 0) :
    Zero3 (norm_onset_dura splineFit stdFn pred onset_th dura_th
      interpolate normalize) := by
  have hON0 : ZeroM (interpolation splineFit (chanSlice pred 2) (1/50) (1/100)) :=
    interpolation_zero splineFit (chanSlice pred 2)
      (hsp _ (chanSlice_zero pred hz 2)) (1/50) (1/100)
  have hDU0 : ZeroM (interpolation splineFit (chanSlice pred 1) (1/50) (1/100)) :=
    interpolation_zero splineFit (chanSlice pred 1)
      (hsp _ (chanSlice_zero pred hz 1)) (1/50) (1/100)
  have hON1 : ZeroM (clipOnset
      (interpolation splineFit (chanSlice pred 2) (1/50) (1/100))
      (interpolation splineFit (chanSlice pred 1) (1/50) (1/100))) :=
    zipWithM_zero _ (by norm_num) _ _ hON0 hDU0
  have hNO : ZeroM (if normalize then
      normM stdFn (clipOnset
        (interpolation splineFit (chanSlice pred 2) (1/50) (1/100))
        (interpolation splineFit (chanSlice pred 1) (1/50) (1/100)))
      else clipOnset
        (interpolation splineFit (chanSlice pred 2) (1/50) (1/100))
        (interpolation splineFit (chanSlice pred 1) (1/50) (1/100))) := by
    cases normalize
    · exact hON1
    · exact normM_zero stdFn _ hON1
  have hON2 : ZeroM (threshBelow (if normalize then
      normM stdFn (clipOnset
        (interpolation splineFit (chanSlice pred 2) (1/50) (1/100))
        (interpolation splineFit (chanSlice pred 1) (1/50) (1/100)))
      else clipOnset
        (interpolation splineFit (chanSlice pred 2) (1/50) (1/100))
        (interpolation splineFit (chanSlice pred 1) (1/50) (1/100))) onset_th) :=
    threshBelow_zero _ hNO onset_th
  have hND : ZeroM (if normalize then
      addMat (normM stdFn
        (interpolation splineFit (chanSlice pred 1) (1/50) (1/100)))
        (threshBelow (if normalize then
          normM stdFn (clipOnset
            (interpolation splineFit (chanSlice pred 2) (1/50) (1/100))
            (interpolation splineFit (chanSlice pred 1) (1/50) (1/100)))
          else clipOnset
            (interpolation splineFit (chanSlice pred 2) (1/50) (1/100))
            (interpolation splineFit (chanSlice pred 1) (1/50) (1/100))) onset_th)
      else addMat
        (interpolation splineFit (chanSlice pred 1) (1/50) (1/100))
        (threshBelow (if normalize then
          normM stdFn (clipOnset
            (interpolation splineFit (chanSlice pred 2) (1/50) (1/100))
            (interpolation splineFit (chanSlice pred 1) (1/50) (1/100)))
          else clipOnset
            (interpolation splineFit (chanSlice pred 2) (1/50) (1/100))
            (interpolation splineFit (chanSlice pred 1) (1/50) (1/100))) onset_th)) := by
    cases normalize
    · exact zipWithM_zero _ (by norm_num) _ _ hDU0 hON2
    · exact zipWithM_zero _ (by norm_num) _ _ (normM_zero stdFn _ hDU0) hON2
  exact tensorBuild_zero _ _ _ _ _ hON2 (threshBelow_zero _ hND dura_th)

lemma gatherNotes_zero_rows (pf : List ℚ → ℕ → List ℕ) (s oi : ℕ) :
    ∀ (rows : List (List Frame4)) (i : ℕ),
      (∀ row ∈ rows, rowSum row ≤ 0) →
      gatherNotes pf s oi i rows = []
  | [], _, _ => rfl
  | row :: rest, i, h => by
      show (if rowSum row ≤ 0 then ([] : List NoteC) else _) ++
        gatherNotes pf s oi (i + 1) rest = []
      rw [if_pos (h row (List.mem_cons_self row rest)),
        gatherNotes_zero_rows pf s oi rest (i + 1)
          (fun r hr => h r (List.mem_cons_of_mem _ hr))]
      rfl

lemma noteBranch_zero (E : Ext) (pred : Tensor3) (onset_th : ℚ)
    (lot : Option ℚ) (split_bound : ℕ) (dura_th : ℚ)
    (normalize : Bool) (t_unit : ℚ)
    (hz : Zero3 pred)
    (hsp : ∀ m, ZeroM m → ∀ q, ∀ v ∈ E.splineFit m q, v = 0)
    (hds : ∀ t, Zero3 t → ∀ row ∈ E.dsFn t, rowSum row ≤ 0) :
    noteBranch E pred onset_th lot split_bound dura_th normalize t_unit =
      [[]] := by
  cases lot with
  | none =>
      have hnp : Zero3 (norm_onset_dura E.splineFit E.stdM pred onset_th
          dura_th true normalize) :=
        norm_onset_dura_zero _ _ _ _ _ _ _ hz hsp
      have hrows : ∀ row ∈ E.dsFn (shiftPos (norm_onset_dura E.splineFit
          E.stdM pred onset_th dura_th true normalize)), rowSum row ≤ 0 :=
        hds _ (shiftPos_zero _ hnp)
      show to_midi (infer_piece E.peaksFn (E.dsFn (shiftPos
        (norm_onset_dura E.splineFit E.stdM pred onset_th dura_th true
          normalize))) 10 12) (t_unit / 2) = [[]]
      simp only [infer_piece]
      rw [gatherNotes_zero_rows E.peaksFn 10 12 _ 0 hrows]
      rfl
  | some l =>
      have hnp : Zero3 (norm_split_onset_dura E.splineFit E.stdM pred
          onset_th l split_bound dura_th true normalize) :=
        hstack3_zero _ _
          (norm_onset_dura_zero _ _ _ _ _ _ _
            (pitchSlice_zero _ hz 0 _) hsp)
          (norm_onset_dura_zero _ _ _ _ _ _ _
            (pitchSlice_zero _ hz _ 352) hsp)
      have hrows : ∀ row ∈ E.dsFn (shiftPos (norm_split_onset_dura
          E.splineFit E.stdM pred onset_th l split_bound dura_th true
          normalize)), rowSum row ≤ 0 :=
        hds _ (shiftPos_zero _ hnp)
      show to_midi (infer_piece E.peaksFn (E.dsFn (shiftPos
        (norm_split_onset_dura E.splineFit E.stdM pred onset_th l
          split_bound dura_th true normalize))) 10 12) (t_unit / 2) = [[]]
      simp only [infer_piece]
      rw [gatherNotes_zero_rows E.peaksFn 10 12 _ 0 hrows]
      rfl

/-- C8: no-detection conditions are not errors.  For an all-zero input
tensor in mode "note" the pipeline returns (without a `ValueError`) a
score with exactly one track holding zero notes, for any spline fit
that preserves the all-zero data and any down-sampler that maps an
all-zero tensor to rows with no positive activation; and an empty peak
list yields an empty candidate list for that pitch row. -/
theorem c8_empty_results (E : Ext) (pred : Tensor3)
    (onset_th dura_th frm_th t_unit : ℚ) (lower_onset_th : Option ℚ)
    (split_bound : ℕ) (normalize : Bool)
    (hz : Zero3 pred)
    (hsp : ∀ m, ZeroM m → ∀ q, ∀ v ∈ E.splineFit m q, v = 0)
    (hds : ∀ t, Zero3 t → ∀ row ∈ E.dsFn t, rowSum row ≤ 0) :
    note_inference E pred sNote onset_th lower_onset_th split_bound
      dura_th frm_th normalize t_unit = some [[]] ∧
    ∀ (w_on w_dura : List ℚ) (shortest oi : ℕ),
      infer_pitch_from_peaks [] w_on w_dura shortest oi = [] := by
  constructor
  · show some (noteBranch E pred onset_th lower_onset_th split_bound
      dura_th normalize t_unit) = some [[]]
    exact congrArg some (noteBranch_zero E pred onset_th lower_onset_th
      split_bound dura_th normalize t_unit hz hsp hds)
  · intro w_on w_dura shortest oi
    rfl

/-- Witness for C8 at the 1-frame, 1-pitch, 1-channel zero tensor and an
external interface whose spline fit, peak finder and down-sampler all
return empty results. -/
theorem c8_empty_results_witness :
    note_inference
      ⟨fun _ _ => [], fun _ => 0, fun _ => 0, fun _ _ => [],
        fun _ => [], fun m => m⟩
      [[[0]]] sNote 6 none 30 0 1 true (1/50) = some [[]] ∧
    infer_pitch_from_peaks [] [1, 2] [3] 10 12 = [] := by
  have h := c8_empty_results
    ⟨fun _ _ => [], fun _ => 0, fun _ => 0, fun _ _ => [],
      fun _ => [], fun m => m⟩
    [[[0]]] 6 0 1 (1/50) none 30 true
    (by
      intro p hp c hc v hv
      simp only [List.mem_singleton] at hp
      subst hp
      simp only [List.mem_singleton] at hc
      subst hc
      simpa using hv)
    (by intro m _ q v hv; cases hv)
    (by intro t _ row hrow; cases hrow)
  exact ⟨h.1, h.2 [1, 2] [3] 10 12⟩

end Omnizart
